import Mathlib

/-!
Verification of the character co-appearance analysis repository
(`Networks.py`, `episodes.py`).

The development shallowly embeds the two core subsystems:

* the Graph Engine of `Networks.py` (`load_data`, `top_connected_characters`,
  `top_strongest_pairs`, `shortest_path`, `get_family`, `character_stats`),
  with a faithful model of the `networkx.Graph` insertion-ordered adjacency
  structure and of the library calls the code makes; and
* the Transcript Segmenter of `episodes.py`
  (`extract_episodes_from_text`), as a line-by-line state machine.

Python strings are modelled by `String`; line splitting, stripping and
slicing are given structural implementations of the Python semantics so
that all definitions evaluate by kernel reduction.  Machine-level details
that cannot matter here (Unicode digit classes beyond ASCII, Unicode
whitespace beyond the six ASCII whitespace characters) are modelled by the
ASCII versions; all inputs appearing in theorems are ASCII.
-/

/-! ## Python string primitives -/

/-- The six characters Python's `str.strip()` and the regex class `\s`
treat as whitespace in ASCII text. -/
def pyIsSpace (c : Char) : Bool :=
  c = ' ' ∨ c = '\t' ∨ c = '\n' ∨ c = '\x0b' ∨ c = '\x0c' ∨ c = '\r'

/-- Python `str.strip()`: drop leading and trailing whitespace. -/
def pyStrip (s : String) : String :=
  ⟨((s.data.dropWhile pyIsSpace).reverse.dropWhile pyIsSpace).reverse⟩

/-- Split a character list at every occurrence of `c`, keeping empty
pieces — the semantics of Python `str.split(c)` for a one-character
separator. -/
def splitCh (c : Char) : List Char → List (List Char)
  | [] => [[]]
  | x :: xs =>
    if x = c then [] :: splitCh c xs
    else
      match splitCh c xs with
      | [] => [[x]]
      | h :: t => (x :: h) :: t

/-- Python `text.split('\n')`. -/
def pyLines (s : String) : List String :=
  (splitCh '\n' s.data).map (fun l => ⟨l⟩)

/-- Substring test: the semantics of Python `needle in hay` on strings. -/
def hasSub (needle : List Char) : List Char → Bool
  | [] => needle.isPrefixOf []
  | c :: rest => needle.isPrefixOf (c :: rest) || hasSub needle rest

/-- Python `s.startswith(p)`. -/
def pyStartsWith (s p : String) : Bool :=
  p.data.isPrefixOf s.data

/-- Python list slicing `l[:n]`, for any integer `n`: a nonnegative `n`
takes the first `n` elements (all of them when `n` exceeds the length);
a negative `n` drops the last `-n` elements. -/
def pyTake (n : Int) (l : List α) : List α :=
  if n < 0 then l.take (l.length - (-n).toNat) else l.take n.toNat

/-- Python truthiness of an optional string (`None` and `""` are falsy). -/
def optTruthy : Option String → Bool
  | none => false
  | some s => !(s == "")

/-! ## Transcript Segmenter (`episodes.py`, `extract_episodes_from_text`) -/

/-- One value of the `episodes` dictionary: `{'title': ..., 'scenes': [...]}`. -/
structure EpRec where
  title : String
  scenes : List String
deriving DecidableEq, Repr

/-- One entry of the flat `scenes_with_episodes` list. -/
structure FlatRec where
  episode : String
  title : Option String
  scene : String
deriving DecidableEq, Repr

/-- The loop state of `extract_episodes_from_text`: the `episodes`
dictionary (insertion-ordered association list), the flat scene list, the
`current_episode` / `current_episode_title` context, the scene buffer and
the `in_scene` flag. -/
structure SegSt where
  episodes : List (String × EpRec)
  scenesWith : List FlatRec
  currentEpisode : Option String
  currentTitle : Option String
  sceneBuffer : List String
  inScene : Bool
deriving DecidableEq, Repr

/-- The state before the loop starts. -/
def initSt : SegSt :=
  { episodes := [], scenesWith := [], currentEpisode := none,
    currentTitle := none, sceneBuffer := [], inScene := false }

/-- `line.startswith('===') and 'Scene' in line`. -/
def isSceneStart (line : String) : Bool :=
  pyStartsWith line "===" && hasSub "Scene".data line.data

/-- `line.startswith('---')`. -/
def isSceneClose (line : String) : Bool :=
  pyStartsWith line "---"

/-- Maximal run of ASCII digits at the front of a character list, with the
remainder. -/
def takeDigits : List Char → List Char × List Char
  | [] => ([], [])
  | c :: cs =>
    if c.isDigit then
      match takeDigits cs with
      | (d, r) => (c :: d, r)
    else ([], c :: cs)

/-- The anchored regex match `re.compile(r'(\d+)x(\d+)\s*(.*)').match(line)`:
season digits, episode digits, and the rest of the line after optional
whitespace.  (`\d+` is greedy and must be followed by the literal `x`, so
it is exactly the maximal leading digit run.) -/
def epMatch (line : String) : Option (String × String × String) :=
  match takeDigits line.data with
  | ([], _) => none
  | (se, r1) =>
    match r1 with
    | 'x' :: r2 =>
      match takeDigits r2 with
      | ([], _) => none
      | (ep, r3) => some (⟨se⟩, ⟨ep⟩, ⟨r3.dropWhile pyIsSpace⟩)
    | _ => none

/-- Python `s.zfill(2)` on a nonempty digit string: left-pad with zeros to
width 2. -/
def zfill2 (s : String) : String :=
  ⟨List.replicate (2 - s.data.length) '0' ++ s.data⟩

/-- `f"S{season}E{episode_num.zfill(2)}"`. -/
def mkCode (se ep : String) : String :=
  "S" ++ se ++ "E" ++ zfill2 ep

/-- Committing the buffered scene at a scene-close marker (lines 39-46 of
`episodes.py`): join the buffer with newlines, append it to the scene list
of `current_episode`, and record a flat entry.  Only called with
`current_episode` truthy; whenever `current_episode` is set the code has
already created its record (lines 58, 62-66), so updating the existing
association-list entry is faithful. -/
def commitScene (st : SegSt) : SegSt :=
  match st.currentEpisode with
  | none => st
  | some code =>
    let content := String.intercalate "\n" st.sceneBuffer
    { st with
      episodes := st.episodes.map
        (fun p => if p.1 = code
          then (p.1, { title := p.2.title, scenes := p.2.scenes ++ [content] })
          else p),
      scenesWith := st.scenesWith ++
        [{ episode := code, title := st.currentTitle, scene := content }] }

/-- The scene-close branch (lines 37-47): maybe commit, then leave the
scene.  The buffer variable is *not* cleared by the Python code; it is
only reset by the next scene-start line. -/
def closeScene (st : SegSt) : SegSt :=
  let st1 :=
    if !st.sceneBuffer.isEmpty && optTruthy st.currentEpisode
    then commitScene st else st
  { st1 with inScene := false }

/-- The in-scene content branch (lines 50-66): append the line to the
buffer, then test it against the episode pattern; on a match update the
current episode context and lazily create the episode record. -/
def contentLine (st : SegSt) (line : String) : SegSt :=
  let st1 := { st with sceneBuffer := st.sceneBuffer ++ [line] }
  match epMatch line with
  | none => st1
  | some (se, ep, ti) =>
    let code := mkCode se ep
    let st2 := { st1 with currentEpisode := some code,
                          currentTitle := some (pyStrip ti) }
    if (st2.episodes.map Prod.fst).contains code then st2
    else { st2 with episodes :=
            st2.episodes ++ [(code, { title := pyStrip ti, scenes := [] })] }

/-- One iteration of the loop body of `extract_episodes_from_text` on an
already-stripped line. -/
def processLine (st : SegSt) (line : String) : SegSt :=
  if isSceneStart line then
    { st with inScene := true, sceneBuffer := [line] }
  else if st.inScene && isSceneClose line then
    closeScene st
  else if st.inScene then
    contentLine st line
  else st

/-- One loop iteration on a raw line (the loop first does
`line = line.strip()`). -/
def stepLine (st : SegSt) (raw : String) : SegSt :=
  processLine st (pyStrip raw)

/-- Run the loop over a list of raw lines. -/
def runList (st : SegSt) (ls : List String) : SegSt :=
  ls.foldl stepLine st

/-- `extract_episodes_from_text`: split the text on newlines, run the
state machine, and return the episode mapping together with the flat
scene list. -/
def extract_episodes_from_text (text_data : String) :
    List (String × EpRec) × List FlatRec :=
  let fin := runList initSt (pyLines text_data)
  (fin.episodes, fin.scenesWith)

/-- First-match association-list lookup (Python dict indexing; keys are
unique by construction). -/
def epLookup (l : List (String × EpRec)) (k : String) : Option EpRec :=
  match l.find? (fun p => p.1 == k) with
  | some p => some p.2
  | none => none

/-! ## Graph Engine (`Networks.py`) -/

/-- A `networkx.Graph` as the source builds it: the insertion-ordered
adjacency structure.  Each entry is a node paired with its
insertion-ordered neighbour list (neighbour, edge weight).  Nodes exist
exactly as keys; `networkx` keeps the adjacency symmetric. -/
abbrev Graph := List (String × List (String × Int))

/-- The node list in insertion order (`graph.nodes`). -/
def nodesList (g : Graph) : List String := g.map Prod.fst

/-- Set `w` as the weight of neighbour `v` inside one adjacency list,
updating in place or appending (`self._adj[u][v] = datadict`). -/
def setW (nbrs : List (String × Int)) (v : String) (w : Int) :
    List (String × Int) :=
  if (nbrs.map Prod.fst).contains v then
    nbrs.map (fun q => if q.1 = v then (v, w) else q)
  else nbrs ++ [(v, w)]

/-- Create the node `u` with an empty adjacency list if absent. -/
def ensureNode (g : Graph) (u : String) : Graph :=
  if (nodesList g).contains u then g else g ++ [(u, [])]

/-- Rewrite the adjacency list of `u` (which must exist) via `setW`. -/
def updAdj (g : Graph) (u v : String) (w : Int) : Graph :=
  g.map (fun p => if p.1 = u then (p.1, setW p.2 v w) else p)

/-- `G.add_edge(u, v, weight=w)`: add missing endpoints in order, then
set the weight in both adjacency directions (overwriting any previous
weight for the pair). -/
def add_edge (g : Graph) (u v : String) (w : Int) : Graph :=
  updAdj (updAdj (ensureNode (ensureNode g u) v) u v w) v u w

/-- `load_data` (lines 6-12 of `Networks.py`), applied to the already
parsed record sequence: keep a record iff its weight is `≥ min_scenes`
and add it as an edge. -/
def load_data (records : List (String × String × Int)) (min_scenes : Int) :
    Graph :=
  records.foldl
    (fun g r => if min_scenes ≤ r.2.2 then add_edge g r.1 r.2.1 r.2.2 else g)
    []

/-- Adjacency list of `u` (empty when `u` is not a node). -/
def lookupAdj (g : Graph) (u : String) : List (String × Int) :=
  match g.find? (fun p => p.1 == u) with
  | some p => p.2
  | none => []

/-- Neighbour names of `u`. -/
def nbrKeys (g : Graph) (u : String) : List String :=
  (lookupAdj g u).map Prod.fst

/-- `networkx` node degree: the adjacency-list length, a self-loop
counting twice. -/
def pyDegree (nbrs : List (String × Int)) (u : String) : Nat :=
  nbrs.length + (if (nbrs.map Prod.fst).contains u then 1 else 0)

/-- Stable insertion of `x` into `l`: `x` goes before the first element
`y` with `le x y`.  Together with `stableSort` this computes exactly what
Python's stable `sorted` returns for the comparison `le`. -/
def stableInsert (le : α → α → Bool) (x : α) : List α → List α
  | [] => [x]
  | y :: ys => if le x y then x :: y :: ys else y :: stableInsert le x ys

/-- Stable sort (insertion sort); equal elements keep their input order,
as Python's `sorted` guarantees. -/
def stableSort (le : α → α → Bool) : List α → List α
  | [] => []
  | x :: xs => stableInsert le x (stableSort le xs)

/-- `sorted(degrees.items(), key=lambda x: x[1], reverse=True)`:
the (node, degree) pairs in node-insertion order, stably sorted by
non-increasing degree. -/
def degreeSorted (g : Graph) : List (String × Nat) :=
  stableSort (fun a b => b.2 ≤ a.2) (g.map (fun p => (p.1, pyDegree p.2 p.1)))

/-- `top_connected_characters` (lines 15-18). -/
def top_connected_characters (g : Graph) (top_n : Int) : List (String × Nat) :=
  pyTake top_n (degreeSorted g)

/-- `G.edges(data=True)`: report each edge once, from the endpoint that
comes first in node-insertion order, walking its adjacency list and
skipping neighbours whose own edges were already reported. -/
def edgesAux : Graph → List String → List (String × String × Int)
  | [], _ => []
  | (u, nbrs) :: rest, seen =>
    (nbrs.filter (fun q => !seen.contains q.1)).map (fun q => (u, q.1, q.2))
      ++ edgesAux rest (u :: seen)

/-- The edge list of a graph with weights (`graph.edges(data=True)`). -/
def edgesData (g : Graph) : List (String × String × Int) := edgesAux g []

/-- `top_strongest_pairs` (lines 20-23). -/
def top_strongest_pairs (g : Graph) (top_n : Int) :
    List ((String × String) × Int) :=
  (pyTake top_n (stableSort (fun a b => b.2.2 ≤ a.2.2) (edgesData g))).map
    (fun e => ((e.1, e.2.1), e.2.2))

/-- The static family table of `get_family` (lines 32-41). -/
def family_groups : List (String × List String) :=
  [("Pritchett", ["Jay", "Gloria", "Manny", "Joe"]),
   ("Dunphy", ["Claire", "Phil", "Haley", "Alex", "Luke"]),
   ("Tucker-Pritchett", ["Mitchell", "Cameron", "Lily"])]

/-- `get_family`: first group containing the character, else `"Unknown"`. -/
def get_family (character : String) : String :=
  match family_groups.find? (fun p => p.2.contains character) with
  | some p => p.1
  | none => "Unknown"

/-- Python-level exceptions the `Networks.py` code can raise or return.
`notFound` models the typed `NotFound` variant the specification
describes; the code itself never produces it. -/
inductive PyErr where
  | nodeNotFound
  | keyError
  | valueError
  | notFound
deriving DecidableEq, Repr

/-- The stats dictionary built by `character_stats`. -/
structure Stats where
  total_scenes : Int
  top_co_character : String × Int
  unique_co_appearances : Nat
  family : String
deriving DecidableEq, Repr

/-- Python `max(items, key=weight)`: the first item of maximal weight. -/
def firstMax (x : String × Int) : List (String × Int) → String × Int
  | [] => x
  | y :: ys => if y.2 > x.2 then firstMax y ys else firstMax x ys

/-- `character_stats` (lines 43-50).  When the character is not a node,
`graph[character]` raises `KeyError` (the preceding `sum` over
`graph.edges(character, ...)` silently iterates the characters of the
name and cannot fail); when it is a node with an empty neighbour list,
`max()` over the empty `neighbors.items()` raises `ValueError`. -/
def character_stats (g : Graph) (character : String) : Except PyErr Stats :=
  if (nodesList g).contains character then
    match lookupAdj g character with
    | [] => .error .valueError
    | n0 :: rest =>
      .ok { total_scenes := (((n0 :: rest).map Prod.snd).foldl (· + ·) 0),
            top_co_character := firstMax n0 rest,
            unique_co_appearances := (n0 :: rest).length,
            family := get_family character }
  else .error .keyError

/-! ### Model of `networkx.shortest_path`

`nx.shortest_path(G, s, t)` (an external library call) raises
`NodeNotFound` when either endpoint is not a node, raises
`NetworkXNoPath` when the endpoints are in different components, and
otherwise returns a breadth-first shortest path from `s` to `t`
inclusive.  The model computes reachability layers and rebuilds a path
from them. -/

/-- One expansion step: add all neighbours of the current set. -/
def reachStep (g : Graph) (s : List String) : List String :=
  s ++ (s.flatMap (nbrKeys g)).filter (fun v => !s.contains v)

/-- Nodes reachable from `s` in at most `k` steps. -/
def reachN (g : Graph) (s : String) : Nat → List String
  | 0 => [s]
  | k + 1 => reachStep g (reachN g s k)

/-- Enough iterations for the layers to saturate. -/
def boundN (g : Graph) : Nat := g.length + 1

/-- Rebuild a path ending at `t` from the reachability layers. -/
def getPath (g : Graph) (s : String) : Nat → String → Option (List String)
  | 0, t => if t = s then some [s] else none
  | k + 1, t =>
    if (reachN g s k).contains t then getPath g s k t
    else
      match (reachN g s k).find? (fun u => (nbrKeys g u).contains t) with
      | some u => (getPath g s k u).map (fun p => p ++ [t])
      | none => none

/-- Result of the library call. -/
inductive NxRes where
  | found (p : List String)
  | noPath
  | nodeNotFound
deriving DecidableEq, Repr

/-- The modelled `nx.shortest_path(G, s, t)`. -/
def nx_shortest_path (g : Graph) (s t : String) : NxRes :=
  if (nodesList g).contains s && (nodesList g).contains t then
    match getPath g s (boundN g) t with
    | some p => .found p
    | none => .noPath
  else .nodeNotFound

/-- `shortest_path` (lines 25-30): call the library, catch only
`NetworkXNoPath` (returning `None`), and let `NodeNotFound` propagate as
an uncaught exception. -/
def shortest_path (g : Graph) (char1 char2 : String) :
    Except PyErr (Option (List String)) :=
  match nx_shortest_path g char1 char2 with
  | .found p => .ok (some p)
  | .noPath => .ok none
  | .nodeNotFound => .error .nodeNotFound

/-- Well-formedness of a graph value, true of every graph `networkx`
builds: unique node keys, unique neighbour keys, neighbours are nodes,
and adjacency is symmetric. -/
def WF (g : Graph) : Prop :=
  (nodesList g).Nodup ∧
  (∀ p ∈ g, (p.2.map Prod.fst).Nodup) ∧
  (∀ p ∈ g, ∀ q ∈ p.2, q.1 ∈ nodesList g) ∧
  (∀ p ∈ g, ∀ q ∈ p.2, p.1 ∈ nbrKeys g q.1)

instance : DecidablePred WF := fun g => by
  unfold WF; infer_instance

/-- A path in the graph from `s` to `t`: nonempty, starts at `s`, ends at
`t`, consecutive elements adjacent. -/
def PathFrom (g : Graph) (s t : String) (p : List String) : Prop :=
  p.head? = some s ∧ p.getLast? = some t ∧
    List.Chain' (fun a b => b ∈ nbrKeys g a) p

deriving instance DecidableEq for Except

/-! ## Basic lemmas about the segmenter -/

theorem runList_nil (st : SegSt) : runList st [] = st := rfl

theorem runList_cons (st : SegSt) (l : String) (ls : List String) :
    runList st (l :: ls) = runList (stepLine st l) ls := rfl

/-- A scene-close line (leading `---`) is never a scene-start line
(leading `===`). -/
theorem not_start_of_close {l : String} (h : isSceneClose l = true) :
    isSceneStart l = false := by
  unfold isSceneClose pyStartsWith at h
  unfold isSceneStart pyStartsWith
  have hd3 : "---".data = ['-', '-', '-'] := rfl
  have he3 : "===".data = ['=', '=', '='] := rfl
  rw [hd3] at h
  rw [he3]
  cases hl : l.data with
  | nil => rw [hl] at h; simp [List.isPrefixOf] at h
  | cons c rest =>
    rw [hl] at h
    simp only [List.isPrefixOf, Bool.and_eq_true, beq_iff_eq] at h
    simp [List.isPrefixOf, ← h.1]

/-- A line matching the episode pattern begins with an ASCII digit. -/
theorem epMatch_head_digit {l : String} {x : String × String × String}
    (h : epMatch l = some x) :
    ∃ c rest, l.data = c :: rest ∧ c.isDigit = true := by
  unfold epMatch at h
  cases hl : l.data with
  | nil => rw [hl] at h; simp [takeDigits] at h
  | cons c rest =>
    rw [hl] at h
    by_cases hc : c.isDigit
    · exact ⟨c, rest, rfl, hc⟩
    · exfalso; simp [takeDigits, hc] at h

/-- A line matching the episode pattern is neither a scene-start nor a
scene-close marker line. -/
theorem epMatch_not_marker {l : String} {x : String × String × String}
    (h : epMatch l = some x) :
    isSceneStart l = false ∧ isSceneClose l = false := by
  obtain ⟨c, rest, hl, hc⟩ := epMatch_head_digit h
  have hne1 : ('=' == c) = false := by
    cases hb : ('=' == c) with
    | false => rfl
    | true => rw [beq_iff_eq] at hb; rw [← hb] at hc; exact absurd hc (by decide)
  have hne2 : ('-' == c) = false := by
    cases hb : ('-' == c) with
    | false => rfl
    | true => rw [beq_iff_eq] at hb; rw [← hb] at hc; exact absurd hc (by decide)
  refine ⟨?_, ?_⟩
  · unfold isSceneStart pyStartsWith
    have he : "===".data = ['=', '='] ++ ['='] := rfl
    rw [he, hl]
    simp [List.isPrefixOf, hne1]
  · unfold isSceneClose pyStartsWith
    have hh : "---".data = ['-', '-'] ++ ['-'] := rfl
    rw [hh, hl]
    simp [List.isPrefixOf, hne2]

theorem epLookup_cons (p : String × EpRec) (t : List (String × EpRec))
    (k : String) :
    epLookup (p :: t) k = if p.1 = k then some p.2 else epLookup t k := by
  unfold epLookup
  rw [List.find?_cons]
  cases hb : (p.1 == k) with
  | true => rw [beq_iff_eq] at hb; simp [hb]
  | false => rw [beq_eq_false_iff_ne] at hb; simp [hb]

theorem epLookup_append (l1 l2 : List (String × EpRec)) (k : String) :
    epLookup (l1 ++ l2) k =
      match epLookup l1 k with
      | some r => some r
      | none => epLookup l2 k := by
  induction l1 with
  | nil => simp [epLookup]
  | cons p t ih =>
    rw [List.cons_append, epLookup_cons, epLookup_cons]
    by_cases h : p.1 = k
    · simp [h]
    · simp [h, ih]

theorem epLookup_none_iff (l : List (String × EpRec)) (k : String) :
    epLookup l k = none ↔ (l.map Prod.fst).contains k = false := by
  induction l with
  | nil => simp [epLookup]
  | cons p t ih =>
    rw [epLookup_cons]
    by_cases h : p.1 = k
    · simp [h]
    · simp [h, ih, Ne.symm h]

/-- Looking up in the edited episode map of `commitScene`: the entry at
`code` has `f` applied to it, all other entries are unchanged. -/
theorem epLookup_map_if (l : List (String × EpRec)) (code k : String)
    (f : EpRec → EpRec) :
    epLookup (l.map fun p => if p.1 = code then (p.1, f p.2) else p) k =
      if k = code then (epLookup l k).map f else epLookup l k := by
  induction l with
  | nil => by_cases h : k = code <;> simp [epLookup, h]
  | cons p t ih =>
    rw [List.map_cons, epLookup_cons, epLookup_cons]
    by_cases hpc : p.1 = code
    · by_cases hpk : p.1 = k
      · have hkc : k = code := by rw [← hpk, hpc]
        simp [hpc, hpk, hkc]
      · have hck : ¬ code = k := by rw [← hpc]; exact fun hh => hpk hh
        have hkc2 : ¬ k = code := fun hh => hck hh.symm
        simp [hpc, hpk, hck, hkc2, ih]
    · by_cases hpk : p.1 = k
      · have hkc : ¬ k = code := by rw [← hpk]; exact fun hh => hpc hh
        simp [hpc, hpk, hkc]
      · simp [hpc, hpk, ih]

/-- Keys of the episode map are unchanged by the `commitScene` edit. -/
theorem keys_map_if (l : List (String × EpRec)) (code : String)
    (f : EpRec → EpRec) :
    (l.map fun p => if p.1 = code then (p.1, f p.2) else p).map Prod.fst =
      l.map Prod.fst := by
  induction l with
  | nil => rfl
  | cons p t ih =>
    by_cases h : p.1 = code <;> simp [h, ih]


/-- Mapping a key-preserving function over an association list keeps the
key list. -/
theorem keys_map_keep (l : List (String × EpRec))
    (g : String × EpRec → String × EpRec) (hg : ∀ p, (g p).1 = p.1) :
    (l.map g).map Prod.fst = l.map Prod.fst := by
  induction l with
  | nil => rfl
  | cons p t ih => simp [hg, ih]

/-- An episode code `f"S{...}E{...}"` is never the empty string. -/
theorem mkCode_ne_empty (se ep : String) : (mkCode se ep == "") = false := by
  cases hb : (mkCode se ep == "") with
  | false => rfl
  | true =>
    exfalso
    rw [beq_iff_eq] at hb
    have hd : (mkCode se ep).data = 'S' :: (se.data ++ 'E' :: (zfill2 ep).data) := by
      unfold mkCode
      simp [String.data_append]
    rw [hb] at hd
    simp at hd

/-! ### Branch characterizations of the loop body -/

theorem processLine_start {st : SegSt} {l : String}
    (hs : isSceneStart l = true) :
    processLine st l = { st with inScene := true, sceneBuffer := [l] } := by
  unfold processLine
  rw [if_pos hs]

theorem processLine_close {st : SegSt} {l : String}
    (hs : isSceneStart l = false) (hin : st.inScene = true)
    (hc : isSceneClose l = true) :
    processLine st l = closeScene st := by
  unfold processLine
  rw [if_neg (by simp [hs]), if_pos (by simp [hin, hc])]

theorem processLine_content {st : SegSt} {l : String}
    (hs : isSceneStart l = false) (hin : st.inScene = true)
    (hc : isSceneClose l = false) :
    processLine st l = contentLine st l := by
  unfold processLine
  rw [if_neg (by simp [hs]), if_neg (by simp [hc]), if_pos hin]

theorem processLine_idle {st : SegSt} {l : String}
    (hs : isSceneStart l = false) (hin : st.inScene = false) :
    processLine st l = st := by
  unfold processLine
  rw [if_neg (by simp [hs]), if_neg (by simp [hin]), if_neg (by simp [hin])]

theorem commitScene_some {st : SegSt} {c : String}
    (hce : st.currentEpisode = some c) :
    commitScene st =
      { st with
        episodes := st.episodes.map
          (fun p => if p.1 = c
            then (p.1, { title := p.2.title,
                         scenes := p.2.scenes ++
                           [String.intercalate "\n" st.sceneBuffer] })
            else p),
        scenesWith := st.scenesWith ++
          [{ episode := c, title := st.currentTitle,
             scene := String.intercalate "\n" st.sceneBuffer }] } := by
  unfold commitScene
  rw [hce]

theorem commitScene_none {st : SegSt} (hce : st.currentEpisode = none) :
    commitScene st = st := by
  unfold commitScene
  rw [hce]

theorem closeScene_commit {st : SegSt}
    (hg : (!st.sceneBuffer.isEmpty && optTruthy st.currentEpisode) = true) :
    closeScene st = { commitScene st with inScene := false } := by
  unfold closeScene
  rw [if_pos hg]

theorem closeScene_skip {st : SegSt}
    (hg : (!st.sceneBuffer.isEmpty && optTruthy st.currentEpisode) = false) :
    closeScene st = { st with inScene := false } := by
  unfold closeScene
  rw [if_neg (by simp [hg])]

theorem contentLine_nomatch {st : SegSt} {l : String}
    (hm : epMatch l = none) :
    contentLine st l = { st with sceneBuffer := st.sceneBuffer ++ [l] } := by
  unfold contentLine
  rw [hm]

theorem contentLine_match_old {st : SegSt} {l se ep ti : String}
    (hm : epMatch l = some (se, ep, ti))
    (hk : (st.episodes.map Prod.fst).contains (mkCode se ep) = true) :
    contentLine st l =
      { st with sceneBuffer := st.sceneBuffer ++ [l],
                currentEpisode := some (mkCode se ep),
                currentTitle := some (pyStrip ti) } := by
  unfold contentLine
  rw [hm]
  dsimp only
  rw [if_pos hk]

theorem contentLine_match_new {st : SegSt} {l se ep ti : String}
    (hm : epMatch l = some (se, ep, ti))
    (hk : (st.episodes.map Prod.fst).contains (mkCode se ep) = false) :
    contentLine st l =
      { st with sceneBuffer := st.sceneBuffer ++ [l],
                currentEpisode := some (mkCode se ep),
                currentTitle := some (pyStrip ti),
                episodes := st.episodes ++
                  [(mkCode se ep, { title := pyStrip ti, scenes := [] })] } := by
  unfold contentLine
  rw [hm]
  dsimp only
  rw [if_neg (by rw [hk]; exact Bool.false_ne_true)]

/-! ### The reachable-state invariant -/

/-- Buffer part of the reachable-state invariant: inside a scene the
buffer is nonempty. -/
def bufOK (st : SegSt) : Bool :=
  !st.inScene || !st.sceneBuffer.isEmpty

/-- Context part of the reachable-state invariant: whenever
`current_episode` is set it is a nonempty code that owns an entry of the
episode map, and `current_episode_title` is also set. -/
def ctxOK (st : SegSt) : Bool :=
  match st.currentEpisode with
  | none => true
  | some c =>
    !(c == "") && (st.episodes.map Prod.fst).contains c &&
      st.currentTitle.isSome

/-- Invariant of every state the segmenter loop can reach. -/
def invB (st : SegSt) : Bool := bufOK st && ctxOK st

theorem invB_initSt : invB initSt = true := by decide

theorem ctxOK_congr {st st' : SegSt}
    (he : st'.currentEpisode = st.currentEpisode)
    (ht : st'.currentTitle = st.currentTitle)
    (hk : st'.episodes.map Prod.fst = st.episodes.map Prod.fst)
    (h : ctxOK st = true) : ctxOK st' = true := by
  unfold ctxOK at h ⊢
  simp only [he, ht, hk]
  exact h

/-- `commitScene` changes neither the episode context, nor the key list
of the episode map, nor the buffer, nor the scene flag. -/
theorem commitScene_ctx (st : SegSt) :
    (commitScene st).currentEpisode = st.currentEpisode ∧
    (commitScene st).currentTitle = st.currentTitle ∧
    (commitScene st).episodes.map Prod.fst = st.episodes.map Prod.fst ∧
    (commitScene st).sceneBuffer = st.sceneBuffer ∧
    (commitScene st).inScene = st.inScene := by
  cases hce : st.currentEpisode with
  | none => rw [commitScene_none hce]; exact ⟨hce, rfl, rfl, rfl, rfl⟩
  | some c =>
    rw [commitScene_some hce]
    refine ⟨hce, rfl, ?_, rfl, rfl⟩
    exact keys_map_keep _ _ (fun p => by split <;> rfl)

theorem containsB_of_mem {α : Type} [BEq α] [LawfulBEq α] {l : List α}
    {c : α} (h : c ∈ l) : l.contains c = true :=
  List.elem_iff.mpr h

/-- The loop body preserves the reachable-state invariant. -/
theorem invB_processLine {st : SegSt} (h : invB st = true) (l : String) :
    invB (processLine st l) = true := by
  simp only [invB, Bool.and_eq_true] at h
  obtain ⟨h1, h2⟩ := h
  by_cases hs : isSceneStart l = true
  · rw [processLine_start hs]
    simp only [invB, Bool.and_eq_true]
    exact ⟨by simp [bufOK], ctxOK_congr rfl rfl rfl h2⟩
  · rw [Bool.not_eq_true] at hs
    by_cases hin : st.inScene = true
    · by_cases hc : isSceneClose l = true
      · rw [processLine_close hs hin hc]
        by_cases hg : (!st.sceneBuffer.isEmpty && optTruthy st.currentEpisode) = true
        · rw [closeScene_commit hg]
          simp only [invB, Bool.and_eq_true]
          obtain ⟨e1, e2, e3, _, _⟩ := commitScene_ctx st
          exact ⟨by simp [bufOK], ctxOK_congr e1 e2 e3 h2⟩
        · rw [Bool.not_eq_true] at hg
          rw [closeScene_skip hg]
          simp only [invB, Bool.and_eq_true]
          exact ⟨by simp [bufOK], ctxOK_congr rfl rfl rfl h2⟩
      · rw [Bool.not_eq_true] at hc
        rw [processLine_content hs hin hc]
        cases hm : epMatch l with
        | none =>
          rw [contentLine_nomatch hm]
          simp only [invB, Bool.and_eq_true]
          exact ⟨by simp [bufOK], ctxOK_congr rfl rfl rfl h2⟩
        | some x =>
          obtain ⟨se, ep, ti⟩ := x
          by_cases hk : (st.episodes.map Prod.fst).contains (mkCode se ep) = true
          · rw [contentLine_match_old hm hk]
            simp only [invB, Bool.and_eq_true]
            refine ⟨by simp [bufOK], ?_⟩
            show (!(mkCode se ep == "") &&
              (List.map Prod.fst st.episodes).contains (mkCode se ep) &&
              (some (pyStrip ti)).isSome) = true
            rw [mkCode_ne_empty, hk]
            rfl
          · rw [Bool.not_eq_true] at hk
            rw [contentLine_match_new hm hk]
            simp only [invB, Bool.and_eq_true]
            refine ⟨by simp [bufOK], ?_⟩
            show (!(mkCode se ep == "") &&
              (List.map Prod.fst (st.episodes ++
                [(mkCode se ep,
                  { title := pyStrip ti, scenes := [] })])).contains
                (mkCode se ep) &&
              (some (pyStrip ti)).isSome) = true
            have hmem : mkCode se ep ∈ List.map Prod.fst (st.episodes ++
                [(mkCode se ep, ({ title := pyStrip ti, scenes := [] } : EpRec))]) := by
              rw [List.map_append]
              exact List.mem_append_right _ (by simp)
            rw [mkCode_ne_empty, containsB_of_mem hmem]
            rfl
    · rw [Bool.not_eq_true] at hin
      rw [processLine_idle hs hin]
      simp only [invB, Bool.and_eq_true]
      exact ⟨h1, h2⟩

/-- The invariant holds after running the loop from any invariant state,
in particular from the initial state. -/
theorem invB_runList {st : SegSt} (h : invB st = true) (ls : List String) :
    invB (runList st ls) = true := by
  induction ls generalizing st with
  | nil => exact h
  | cons l t ih => rw [runList_cons]; exact ih (invB_processLine h _)

/-! ## Claims about the Transcript Segmenter -/

/-- C10: there is a transcript whose episode mapping contains an
identifier with an empty scene list: an episode header matched inside a
scene creates the entry immediately, and a later header in the same scene
becomes the active episode before the scene closes, so nothing is ever
committed under the first identifier. -/
theorem c10_empty_scene_list :
    epLookup (extract_episodes_from_text
        "=== Scene 1 ===\n1x01 Pilot\n2x05 Other\n---").1 "S1E01" =
      some { title := "Pilot", scenes := [] } ∧
    (extract_episodes_from_text
        "=== Scene 1 ===\n1x01 Pilot\n2x05 Other\n---").2.map
        (fun r => r.episode) = ["S2E05"] := by
  decide

/-- C7, counterexample: in the `InScene` state, a line that is itself a
scene-start marker (here `"=== Scene B ==="`) does not start with the
scene-close marker, yet it is *not* appended to the scene buffer — the
buffer is reset to just that line, dropping the lines buffered so far. -/
theorem c7_inscene_counterexample :
    ((runList initSt ["=== Scene A ===", "1x01 T"]).inScene = true
      ∧ isSceneClose "=== Scene B ===" = false)
    ∧ (processLine (runList initSt ["=== Scene A ===", "1x01 T"])
          "=== Scene B ===").sceneBuffer
        ≠ (runList initSt ["=== Scene A ===", "1x01 T"]).sceneBuffer ++
            ["=== Scene B ==="] := by
  decide

/-- C7, amended: while in `InScene`, every line that neither starts with
the scene-close marker nor is itself a scene-start marker line is
appended to the scene buffer and then tested against the episode-marker
pattern; on a match, `currentEpisode` becomes `S<season>E<episode>` with
the episode digits zero-padded to width 2, `currentTitle` becomes the
trimmed rest of the line, a never-before-seen identifier gets a fresh
episode record with that title and an empty scene list, and an
already-seen identifier keeps its stored record.  A scene-start marker
line instead resets the buffer to just that line and leaves everything
else unchanged. -/
theorem c7_inscene_spec (st : SegSt) (l : String)
    (hin : st.inScene = true) (hnc : isSceneClose l = false) :
    (isSceneStart l = true →
      processLine st l = { st with inScene := true, sceneBuffer := [l] })
    ∧ (isSceneStart l = false →
      (processLine st l).sceneBuffer = st.sceneBuffer ++ [l]
      ∧ (processLine st l).scenesWith = st.scenesWith
      ∧ (processLine st l).inScene = true
      ∧ (∀ se ep ti, epMatch l = some (se, ep, ti) →
          (processLine st l).currentEpisode = some (mkCode se ep)
          ∧ (processLine st l).currentTitle = some (pyStrip ti)
          ∧ (epLookup st.episodes (mkCode se ep) = none →
              (processLine st l).episodes = st.episodes ++
                [(mkCode se ep, { title := pyStrip ti, scenes := [] })])
          ∧ (∀ r, epLookup st.episodes (mkCode se ep) = some r →
              (processLine st l).episodes = st.episodes))
      ∧ (epMatch l = none →
          (processLine st l).episodes = st.episodes
          ∧ (processLine st l).currentEpisode = st.currentEpisode
          ∧ (processLine st l).currentTitle = st.currentTitle)) := by
  constructor
  · intro hs
    exact processLine_start hs
  · intro hs
    rw [processLine_content hs hin hnc]
    cases hm : epMatch l with
    | none =>
      rw [contentLine_nomatch hm]
      refine ⟨rfl, rfl, hin, ?_, ?_⟩
      · intro se ep ti h
        cases h
      · intro _
        exact ⟨rfl, rfl, rfl⟩
    | some x =>
      obtain ⟨se, ep, ti⟩ := x
      by_cases hk : (st.episodes.map Prod.fst).contains (mkCode se ep) = true
      · rw [contentLine_match_old hm hk]
        refine ⟨rfl, rfl, hin, ?_, ?_⟩
        · intro se' ep' ti' h
          simp only [Option.some.injEq, Prod.mk.injEq] at h
          obtain ⟨rfl, rfl, rfl⟩ := h
          refine ⟨rfl, rfl, ?_, ?_⟩
          · intro hnone
            rw [epLookup_none_iff] at hnone
            rw [hk] at hnone
            cases hnone
          · intro r _
            rfl
        · intro h
          cases h
      · rw [Bool.not_eq_true] at hk
        rw [contentLine_match_new hm hk]
        refine ⟨rfl, rfl, hin, ?_, ?_⟩
        · intro se' ep' ti' h
          simp only [Option.some.injEq, Prod.mk.injEq] at h
          obtain ⟨rfl, rfl, rfl⟩ := h
          refine ⟨rfl, rfl, ?_, ?_⟩
          · intro _
            rfl
          · intro r hr
            exfalso
            rw [(epLookup_none_iff _ _).mpr hk] at hr
            cases hr
        · intro h
          cases h

/-- C7 witness: a concrete reachable in-scene state and an episode-header
line, with the hypotheses discharged and the buffer-append conclusion
instantiated. -/
theorem c7_inscene_spec_witness :
    ((runList initSt ["=== Scene W ==="]).inScene = true
      ∧ isSceneClose "3x4 Qu" = false)
    ∧ (processLine (runList initSt ["=== Scene W ==="]) "3x4 Qu").sceneBuffer =
        (runList initSt ["=== Scene W ==="]).sceneBuffer ++ ["3x4 Qu"] :=
  ⟨⟨by decide, by decide⟩,
    ((c7_inscene_spec (runList initSt ["=== Scene W ==="]) "3x4 Qu"
      (by decide) (by decide)).2 (by decide)).1⟩

/-- The `commitScene` episode-map edit, seen through lookup. -/
theorem epLookup_commit (l : List (String × EpRec)) (code k content : String) :
    epLookup (l.map fun p =>
        if p.1 = code
        then (p.1, { title := p.2.title, scenes := p.2.scenes ++ [content] })
        else p) k =
      if k = code
      then (epLookup l k).map
        (fun r => { title := r.title, scenes := r.scenes ++ [content] })
      else epLookup l k :=
  epLookup_map_if l code k
    (fun r => { title := r.title, scenes := r.scenes ++ [content] })

/-- Two segmenter states that agree on everything observable (the buffer
may differ while not inside a scene). -/
def ObsRel (st1 st2 : SegSt) : Prop :=
  st1.episodes = st2.episodes ∧ st1.scenesWith = st2.scenesWith ∧
  st1.currentEpisode = st2.currentEpisode ∧
  st1.currentTitle = st2.currentTitle ∧
  st1.inScene = st2.inScene ∧
  (st1.inScene = true → st1.sceneBuffer = st2.sceneBuffer)

theorem ObsRel_processLine {st1 st2 : SegSt} (h : ObsRel st1 st2)
    (l : String) : ObsRel (processLine st1 l) (processLine st2 l) := by
  obtain ⟨he, hw, hce, hct, hsc, hbuf⟩ := h
  by_cases hs : isSceneStart l = true
  · rw [processLine_start hs, processLine_start hs]
    exact ⟨he, hw, hce, hct, rfl, fun _ => rfl⟩
  · rw [Bool.not_eq_true] at hs
    by_cases hin : st1.inScene = true
    · have h12 : st1 = st2 := by
        cases st1; cases st2; simp_all
      subst h12
      exact ⟨rfl, rfl, rfl, rfl, rfl, fun _ => rfl⟩
    · rw [Bool.not_eq_true] at hin
      rw [processLine_idle hs hin, processLine_idle hs (by rw [← hsc]; exact hin)]
      exact ⟨he, hw, hce, hct, hsc, hbuf⟩

theorem ObsRel_runList {st1 st2 : SegSt} (h : ObsRel st1 st2)
    (ls : List String) : ObsRel (runList st1 ls) (runList st2 ls) := by
  induction ls generalizing st1 st2 with
  | nil => exact h
  | cons l t ih =>
    rw [runList_cons, runList_cons]
    exact ih (ObsRel_processLine h (pyStrip l))

theorem closeScene_inScene (st : SegSt) : (closeScene st).inScene = false := rfl

/-- C8 (confirmed): when a scene-close marker is processed in `InScene`
(in any reachable state), the buffered scene is committed to the active
episode's scene list and to the flat record list iff an episode is
currently active; with no active episode nothing is added to either
output; in every case the state returns to `Idle` and the buffer is
discarded — its remaining content can never influence the outputs of any
continuation of the run. -/
theorem c8_scene_close_spec (st : SegSt) (l : String)
    (hInv : invB st = true) (hin : st.inScene = true)
    (hc : isSceneClose l = true) :
    (processLine st l).inScene = false
    ∧ (∀ c, st.currentEpisode = some c →
        (processLine st l).scenesWith = st.scenesWith ++
          [{ episode := c, title := st.currentTitle,
             scene := String.intercalate "\n" st.sceneBuffer }]
        ∧ epLookup (processLine st l).episodes c =
            (epLookup st.episodes c).map
              (fun r => { title := r.title, scenes := r.scenes ++
                  [String.intercalate "\n" st.sceneBuffer] })
        ∧ (∀ c2, ¬ c2 = c → epLookup (processLine st l).episodes c2 =
            epLookup st.episodes c2))
    ∧ (st.currentEpisode = none →
        (processLine st l).episodes = st.episodes
        ∧ (processLine st l).scenesWith = st.scenesWith)
    ∧ (∀ b ls,
        (runList { processLine st l with sceneBuffer := b } ls).episodes =
          (runList (processLine st l) ls).episodes
        ∧ (runList { processLine st l with sceneBuffer := b } ls).scenesWith =
          (runList (processLine st l) ls).scenesWith) := by
  have hs : isSceneStart l = false := not_start_of_close hc
  simp only [invB, Bool.and_eq_true] at hInv
  obtain ⟨hbufI, hctx⟩ := hInv
  have hbe : st.sceneBuffer.isEmpty = false := by
    simp only [bufOK, hin] at hbufI
    simpa using hbufI
  rw [processLine_close hs hin hc]
  refine ⟨closeScene_inScene st, ?_, ?_, ?_⟩
  · intro c hce
    simp only [ctxOK, hce, Bool.and_eq_true] at hctx
    obtain ⟨⟨hc1, _⟩, _⟩ := hctx
    have hg : (!st.sceneBuffer.isEmpty && optTruthy st.currentEpisode) = true := by
      rw [hce, hbe]
      simp only [optTruthy]
      rw [Bool.not_eq_true'] at hc1
      rw [hc1]
      rfl
    rw [closeScene_commit hg]
    have hcs := commitScene_some hce
    refine ⟨?_, ?_, ?_⟩
    · rw [hcs]
    · show epLookup (commitScene st).episodes c = _
      rw [hcs]
      show epLookup (st.episodes.map fun p => if p.1 = c then (p.1, { title := p.2.title, scenes := p.2.scenes ++ [String.intercalate "\n" st.sceneBuffer] }) else p) c = _
      rw [epLookup_commit]
      rw [if_pos rfl]
    · intro c2 hne
      show epLookup (commitScene st).episodes c2 = _
      rw [hcs]
      show epLookup (st.episodes.map fun p => if p.1 = c then (p.1, { title := p.2.title, scenes := p.2.scenes ++ [String.intercalate "\n" st.sceneBuffer] }) else p) c2 = _
      rw [epLookup_commit]
      rw [if_neg hne]
  · intro hce
    have hg : (!st.sceneBuffer.isEmpty && optTruthy st.currentEpisode) = false := by
      rw [hce]
      simp [optTruthy]
    rw [closeScene_skip hg]
    exact ⟨rfl, rfl⟩
  · intro b ls
    have hrel : ObsRel { closeScene st with sceneBuffer := b } (closeScene st) :=
      ⟨rfl, rfl, rfl, rfl, rfl, fun hh => by
        have h2 : (closeScene st).inScene = true := hh
        rw [closeScene_inScene] at h2
        cases h2⟩
    obtain ⟨r1, r2, _⟩ := ObsRel_runList hrel ls
    exact ⟨r1, r2⟩

/-- C8 witness: a concrete reachable in-scene state with an active
episode, closed by a `---` line. -/
theorem c8_scene_close_spec_witness :
    (invB (runList initSt ["=== Scene Q ===", "1x01 T"]) = true
      ∧ (runList initSt ["=== Scene Q ===", "1x01 T"]).inScene = true
      ∧ isSceneClose "---" = true)
    ∧ (processLine (runList initSt ["=== Scene Q ===", "1x01 T"]) "---").inScene
        = false :=
  ⟨⟨by decide, by decide, by decide⟩,
    (c8_scene_close_spec (runList initSt ["=== Scene Q ===", "1x01 T"]) "---"
      (by decide) (by decide) (by decide)).1⟩

/-- One loop step never changes the stored title of an existing episode
record (commit edits only the scene list; creation only appends new
keys). -/
theorem title_preserved_step (st : SegSt) (l : String) {code : String}
    {r : EpRec} (h : epLookup st.episodes code = some r) :
    ∃ r2, epLookup (processLine st l).episodes code = some r2 ∧
      r2.title = r.title := by
  by_cases hs : isSceneStart l = true
  · rw [processLine_start hs]
    exact ⟨r, h, rfl⟩
  · rw [Bool.not_eq_true] at hs
    by_cases hin : st.inScene = true
    · by_cases hc : isSceneClose l = true
      · rw [processLine_close hs hin hc]
        by_cases hg : (!st.sceneBuffer.isEmpty && optTruthy st.currentEpisode) = true
        · rw [closeScene_commit hg]
          cases hce : st.currentEpisode with
          | none =>
            rw [commitScene_none hce]
            exact ⟨r, h, rfl⟩
          | some c =>
            rw [commitScene_some hce]
            show ∃ r2, epLookup (st.episodes.map fun p => if p.1 = c then (p.1, { title := p.2.title, scenes := p.2.scenes ++ [String.intercalate "\n" st.sceneBuffer] }) else p) code = some r2 ∧ r2.title = r.title
            rw [epLookup_commit]
            by_cases hkc : code = c
            · rw [if_pos hkc, h]
              exact ⟨_, rfl, rfl⟩
            · rw [if_neg hkc, h]
              exact ⟨r, rfl, rfl⟩
        · rw [Bool.not_eq_true] at hg
          rw [closeScene_skip hg]
          exact ⟨r, h, rfl⟩
      · rw [Bool.not_eq_true] at hc
        rw [processLine_content hs hin hc]
        cases hm : epMatch l with
        | none =>
          rw [contentLine_nomatch hm]
          exact ⟨r, h, rfl⟩
        | some x =>
          obtain ⟨se, ep, ti⟩ := x
          by_cases hk : (st.episodes.map Prod.fst).contains (mkCode se ep) = true
          · rw [contentLine_match_old hm hk]
            exact ⟨r, h, rfl⟩
          · rw [Bool.not_eq_true] at hk
            rw [contentLine_match_new hm hk]
            show ∃ r2, epLookup (st.episodes ++ [(mkCode se ep, { title := pyStrip ti, scenes := [] })]) code = some r2 ∧ r2.title = r.title
            rw [epLookup_append, h]
            exact ⟨r, rfl, rfl⟩
    · rw [Bool.not_eq_true] at hin
      rw [processLine_idle hs hin]
      exact ⟨r, h, rfl⟩

/-- Running any further input never changes the stored title of an
existing episode record. -/
theorem title_preserved_run (st : SegSt) (ls : List String) {code : String}
    {r : EpRec} (h : epLookup st.episodes code = some r) :
    ∃ r2, epLookup (runList st ls).episodes code = some r2 ∧
      r2.title = r.title := by
  induction ls generalizing st r with
  | nil => exact ⟨r, h, rfl⟩
  | cons l t ih =>
    rw [runList_cons]
    obtain ⟨r1, h1, ht1⟩ := title_preserved_step st (pyStrip l) h
    obtain ⟨r2, h2, ht2⟩ := ih _ h1
    exact ⟨r2, h2, by rw [ht2, ht1]⟩

/-- C9 (confirmed): the title stored for an episode identifier is the
trimmed title of the first line that declared that identifier during the
scan; processing any further lines — including re-declarations of the
same identifier with different trailing text — never overwrites it. -/
theorem c9_title_first_wins (st : SegSt) (raw : String) (ls : List String)
    (se ep ti : String)
    (hin : st.inScene = true)
    (hm : epMatch (pyStrip raw) = some (se, ep, ti))
    (hnew : epLookup st.episodes (mkCode se ep) = none) :
    ∃ r, epLookup (runList (stepLine st raw) ls).episodes (mkCode se ep) =
      some r ∧ r.title = pyStrip ti := by
  have hmark := epMatch_not_marker hm
  have hstep : stepLine st raw = contentLine st (pyStrip raw) :=
    processLine_content hmark.1 hin hmark.2
  rw [hstep, contentLine_match_new hm ((epLookup_none_iff _ _).mp hnew)]
  have hl : epLookup (st.episodes ++
      [(mkCode se ep, ({ title := pyStrip ti, scenes := [] } : EpRec))])
      (mkCode se ep) = some { title := pyStrip ti, scenes := [] } := by
    rw [epLookup_append, hnew]
    simp [epLookup_cons]
  exact title_preserved_run
    { st with sceneBuffer := st.sceneBuffer ++ [pyStrip raw],
              currentEpisode := some (mkCode se ep),
              currentTitle := some (pyStrip ti),
              episodes := st.episodes ++
                [(mkCode se ep, { title := pyStrip ti, scenes := [] })] }
    ls hl

/-- C9 witness: a concrete in-scene state, a first declaration of
`S2E03`, and a continuation that closes the scene and re-declares the
identifier with a different title; the stored title survives. -/
theorem c9_title_first_wins_witness :
    ((runList initSt ["=== Scene Z ==="]).inScene = true
      ∧ epMatch (pyStrip "2x3 Here") = some ("2", "3", "Here")
      ∧ epLookup (runList initSt ["=== Scene Z ==="]).episodes
          (mkCode "2" "3") = none)
    ∧ ∃ r, epLookup (runList (stepLine (runList initSt ["=== Scene Z ==="])
          "2x3 Here") ["---", "=== Scene Y ===", "2x3 Changed", "---"]).episodes
          (mkCode "2" "3") = some r ∧ r.title = pyStrip "Here" :=
  ⟨⟨by decide, by decide, by decide⟩,
    c9_title_first_wins (runList initSt ["=== Scene Z ==="]) "2x3 Here"
      ["---", "=== Scene Y ===", "2x3 Changed", "---"] "2" "3" "Here"
      (by decide) (by decide) (by decide)⟩

/-! ### C4: committed scene texts -/

/-- A well-formed scene block: nonempty, begins with a scene-start line,
and has no interior scene-start or scene-close lines. -/
def GoodBlock (b : List String) : Prop :=
  ∃ hd tl, b = hd :: tl ∧ isSceneStart hd = true ∧
    ∀ x ∈ tl, isSceneStart x = false ∧ isSceneClose x = false

/-- All committed scene texts held by a state, across the flat list and
the episode mapping. -/
def allTexts (st : SegSt) : List String :=
  st.scenesWith.map (fun r => r.scene) ++
    st.episodes.flatMap (fun p => p.2.scenes)

/-- `t` is the newline-join of some good block of consecutive lines of
`done`. -/
def TextFromBlock (done : List String) (t : String) : Prop :=
  ∃ block, block <:+: done ∧ GoodBlock block ∧
    t = String.intercalate "\n" block

theorem TextFromBlock_extend {done : List String} {t : String}
    (h : TextFromBlock done t) (l : String) :
    TextFromBlock (done ++ [l]) t := by
  obtain ⟨b, hb, hg, ht⟩ := h
  exact ⟨b, hb.trans (List.prefix_append done [l]).isInfix, hg, ht⟩

theorem goodBlock_single {l : String} (hs : isSceneStart l = true) :
    GoodBlock [l] :=
  ⟨l, [], rfl, hs, by intro x hx; cases hx⟩

theorem goodBlock_append {b : List String} (h : GoodBlock b) {l : String}
    (h1 : isSceneStart l = false) (h2 : isSceneClose l = false) :
    GoodBlock (b ++ [l]) := by
  obtain ⟨hd, tl, rfl, hs, hall⟩ := h
  refine ⟨hd, tl ++ [l], by simp, hs, ?_⟩
  intro x hx
  rcases List.mem_append.mp hx with hx | hx
  · exact hall x hx
  · rw [List.mem_singleton] at hx
    subst hx
    exact ⟨h1, h2⟩

/-- The loop invariant for C4: while inside a scene, the buffer is a good
block forming a suffix of the processed (stripped) lines, and every
committed text is the join of a good block of consecutive processed
lines. -/
def C4Inv (st : SegSt) (done : List String) : Prop :=
  (st.inScene = true →
    ∃ pre, done = pre ++ st.sceneBuffer ∧ GoodBlock st.sceneBuffer)
  ∧ ∀ t ∈ allTexts st, TextFromBlock done t

/-- C4, counterexample: the loop strips every line before buffering it
(line 28 of `episodes.py`), so a line with surrounding whitespace is not
reproduced verbatim in the committed scene text. -/
theorem c4_scene_text_counterexample :
    (extract_episodes_from_text "=== Scene 1 ===\n1x01 T\n  hi  \n---").2.map
        (fun r => r.scene) = ["=== Scene 1 ===\n1x01 T\nhi"]
    ∧ ¬ ("  hi  ".data <:+: "=== Scene 1 ===\n1x01 T\nhi".data) := by
  constructor
  · decide
  · decide

/-- Any text in the outputs of `commitScene` is either an old text or the
join of the current buffer. -/
theorem mem_allTexts_commit {st : SegSt} {c : String}
    (hce : st.currentEpisode = some c) {t : String}
    (ht : t ∈ allTexts (commitScene st)) :
    t ∈ allTexts st ∨ t = String.intercalate "\n" st.sceneBuffer := by
  rw [commitScene_some hce] at ht
  unfold allTexts at ht ⊢
  dsimp only at ht
  rcases List.mem_append.mp ht with hL | hR
  · rw [List.map_append] at hL
    rcases List.mem_append.mp hL with h1 | h2
    · exact Or.inl (List.mem_append.mpr (Or.inl h1))
    · rw [List.map_cons, List.map_nil, List.mem_singleton] at h2
      exact Or.inr h2
  · rw [List.mem_flatMap] at hR
    obtain ⟨p', hp', htp⟩ := hR
    rw [List.mem_map] at hp'
    obtain ⟨p, hp, rfl⟩ := hp'
    by_cases hpc : p.1 = c
    · rw [if_pos hpc] at htp
      dsimp only at htp
      rcases List.mem_append.mp htp with h1 | h2
      · exact Or.inl (List.mem_append.mpr
          (Or.inr (List.mem_flatMap.mpr ⟨p, hp, h1⟩)))
      · rw [List.mem_singleton] at h2
        exact Or.inr h2
    · rw [if_neg hpc] at htp
      exact Or.inl (List.mem_append.mpr
        (Or.inr (List.mem_flatMap.mpr ⟨p, hp, htp⟩)))

/-- One loop step preserves the C4 invariant (the processed line is
appended to `done`). -/
theorem c4_step {st : SegSt} {done : List String} (h : C4Inv st done)
    (l : String) : C4Inv (processLine st l) (done ++ [l]) := by
  obtain ⟨hbuf, htexts⟩ := h
  by_cases hs : isSceneStart l = true
  · rw [processLine_start hs]
    constructor
    · intro _
      exact ⟨done, rfl, goodBlock_single hs⟩
    · intro t ht
      exact TextFromBlock_extend (htexts t ht) l
  · rw [Bool.not_eq_true] at hs
    by_cases hin : st.inScene = true
    · by_cases hc : isSceneClose l = true
      · rw [processLine_close hs hin hc]
        constructor
        · intro hfalse
          rw [closeScene_inScene] at hfalse
          cases hfalse
        · intro t ht
          by_cases hg : (!st.sceneBuffer.isEmpty && optTruthy st.currentEpisode) = true
          · rw [closeScene_commit hg] at ht
            have ht' : t ∈ allTexts (commitScene st) := ht
            cases hce : st.currentEpisode with
            | none =>
              rw [commitScene_none hce] at ht'
              exact TextFromBlock_extend (htexts t ht') l
            | some c =>
              rcases mem_allTexts_commit hce ht' with hold | hnew
              · exact TextFromBlock_extend (htexts t hold) l
              · obtain ⟨pre, hpre, hgb⟩ := hbuf hin
                refine ⟨st.sceneBuffer, ?_, hgb, hnew⟩
                rw [hpre]
                exact ⟨pre, [l], rfl⟩
          · rw [Bool.not_eq_true] at hg
            rw [closeScene_skip hg] at ht
            have ht' : t ∈ allTexts st := ht
            exact TextFromBlock_extend (htexts t ht') l
      · rw [Bool.not_eq_true] at hc
        rw [processLine_content hs hin hc]
        obtain ⟨pre, hpre, hgb⟩ := hbuf hin
        have hgb' : GoodBlock (st.sceneBuffer ++ [l]) :=
          goodBlock_append hgb hs hc
        cases hm : epMatch l with
        | none =>
          rw [contentLine_nomatch hm]
          constructor
          · intro _
            exact ⟨pre, by rw [hpre, List.append_assoc], hgb'⟩
          · intro t ht
            exact TextFromBlock_extend (htexts t ht) l
        | some x =>
          obtain ⟨se, ep, ti⟩ := x
          by_cases hk : (st.episodes.map Prod.fst).contains (mkCode se ep) = true
          · rw [contentLine_match_old hm hk]
            constructor
            · intro _
              exact ⟨pre, by rw [hpre, List.append_assoc], hgb'⟩
            · intro t ht
              exact TextFromBlock_extend (htexts t ht) l
          · rw [Bool.not_eq_true] at hk
            rw [contentLine_match_new hm hk]
            constructor
            · intro _
              exact ⟨pre, by rw [hpre, List.append_assoc], hgb'⟩
            · intro t ht
              have ht' : t ∈ allTexts st := by
                unfold allTexts at ht ⊢
                dsimp only at ht
                rw [List.flatMap_append] at ht
                simp only [List.flatMap_cons, List.flatMap_nil,
                  List.append_nil] at ht
                exact ht
              exact TextFromBlock_extend (htexts t ht') l
    · rw [Bool.not_eq_true] at hin
      rw [processLine_idle hs hin]
      constructor
      · intro hfalse
        rw [hin] at hfalse
        cases hfalse
      · intro t ht
        exact TextFromBlock_extend (htexts t ht) l

theorem c4_init : C4Inv initSt [] := by
  constructor
  · intro hfalse
    cases hfalse
  · intro t ht
    cases ht

theorem c4_run {st : SegSt} {done : List String} (h : C4Inv st done)
    (ls : List String) :
    C4Inv (runList st ls) (done ++ ls.map pyStrip) := by
  induction ls generalizing st done with
  | nil => simpa using h
  | cons l t ih =>
    rw [runList_cons, List.map_cons]
    have h2 := ih (c4_step h (pyStrip l))
    have he : done ++ (pyStrip l :: t.map pyStrip) =
        (done ++ [pyStrip l]) ++ t.map pyStrip := by simp
    rw [he]
    exact h2

/-- C4, amended: the text of each committed scene is the scene block's
original lines *each stripped of leading and trailing whitespace*, joined
by newline — the block is a contiguous run of the (stripped) input lines
that starts with the scene-start marker line and omits no line; but the
lines are not verbatim, since the loop strips every line first. -/
theorem c4_scene_text_spec (txt : String) :
    (∀ r ∈ (extract_episodes_from_text txt).2,
      TextFromBlock ((pyLines txt).map pyStrip) r.scene)
    ∧ (∀ p ∈ (extract_episodes_from_text txt).1, ∀ t ∈ p.2.scenes,
      TextFromBlock ((pyLines txt).map pyStrip) t) := by
  have h := c4_run c4_init (pyLines txt)
  rw [List.nil_append] at h
  obtain ⟨_, htexts⟩ := h
  constructor
  · intro r hr
    exact htexts _ (List.mem_append.mpr (Or.inl (List.mem_map.mpr ⟨r, hr, rfl⟩)))
  · intro p hp t htp
    exact htexts _ (List.mem_append.mpr
      (Or.inr (List.mem_flatMap.mpr ⟨p, hp, htp⟩)))

/-- C4 witness: the flat entry committed for the concrete transcript of
the counterexample, with its block structure certified. -/
theorem c4_scene_text_spec_witness :
    ({ episode := "S1E01", title := some "T",
       scene := "=== Scene 1 ===\n1x01 T\nhi" } : FlatRec) ∈
        (extract_episodes_from_text "=== Scene 1 ===\n1x01 T\n  hi  \n---").2
    ∧ TextFromBlock
        ((pyLines "=== Scene 1 ===\n1x01 T\n  hi  \n---").map pyStrip)
        "=== Scene 1 ===\n1x01 T\nhi" :=
  ⟨by decide,
    (c4_scene_text_spec "=== Scene 1 ===\n1x01 T\n  hi  \n---").1
      { episode := "S1E01", title := some "T",
        scene := "=== Scene 1 ===\n1x01 T\nhi" } (by decide)⟩

/-! ## Lemmas about the stable sort and Python slicing -/

theorem stableInsert_perm {α : Type} (le : α → α → Bool) (x : α)
    (l : List α) : List.Perm (stableInsert le x l) (x :: l) := by
  induction l with
  | nil => exact List.Perm.refl _
  | cons y ys ih =>
    simp only [stableInsert]
    by_cases h : le x y = true
    · rw [if_pos h]
    · rw [if_neg h]
      exact (ih.cons y).trans (List.Perm.swap x y ys)

theorem stableSort_perm {α : Type} (le : α → α → Bool) (l : List α) :
    List.Perm (stableSort le l) l := by
  induction l with
  | nil => exact List.Perm.refl _
  | cons x xs ih =>
    simp only [stableSort]
    exact (stableInsert_perm le x (stableSort le xs)).trans (ih.cons x)

theorem stableSort_length {α : Type} (le : α → α → Bool) (l : List α) :
    (stableSort le l).length = l.length :=
  (stableSort_perm le l).length_eq

theorem stableInsert_pairwise {α : Type} {le : α → α → Bool}
    (htrans : ∀ a b c, le a b = true → le b c = true → le a c = true)
    (htot : ∀ a b, le a b = true ∨ le b a = true)
    (x : α) {l : List α} (h : l.Pairwise (fun a b => le a b = true)) :
    (stableInsert le x l).Pairwise (fun a b => le a b = true) := by
  induction l with
  | nil => simp [stableInsert]
  | cons y ys ih =>
    simp only [stableInsert]
    have hy := List.pairwise_cons.mp h
    by_cases hxy : le x y = true
    · rw [if_pos hxy]
      refine List.pairwise_cons.mpr ⟨?_, h⟩
      intro z hz
      rcases List.mem_cons.mp hz with rfl | hz'
      · exact hxy
      · exact htrans x y z hxy (hy.1 z hz')
    · rw [if_neg hxy]
      refine List.pairwise_cons.mpr ⟨?_, ih hy.2⟩
      intro z hz
      have hz' : z ∈ x :: ys := (stableInsert_perm le x ys).mem_iff.mp hz
      rcases List.mem_cons.mp hz' with rfl | hz''
      · rcases htot z y with h1 | h1
        · exact absurd h1 hxy
        · exact h1
      · exact hy.1 z hz''

theorem stableSort_pairwise {α : Type} {le : α → α → Bool}
    (htrans : ∀ a b c, le a b = true → le b c = true → le a c = true)
    (htot : ∀ a b, le a b = true ∨ le b a = true) (l : List α) :
    (stableSort le l).Pairwise (fun a b => le a b = true) := by
  induction l with
  | nil => simp [stableSort]
  | cons x xs ih =>
    simp only [stableSort]
    exact stableInsert_pairwise htrans htot x ih

theorem pyTake_nonneg {n : Int} (h : 0 ≤ n) (l : List α) :
    pyTake n l = l.take n.toNat := by
  unfold pyTake
  rw [if_neg (by omega)]

theorem pyTake_neg {n : Int} (h : n < 0) (l : List α) :
    pyTake n l = l.take (l.length - (-n).toNat) := by
  unfold pyTake
  rw [if_pos h]

theorem pyTake_sublist (n : Int) (l : List α) : (pyTake n l).Sublist l := by
  unfold pyTake
  split
  · exact List.take_sublist _ l
  · exact List.take_sublist _ l

theorem degreeSorted_length (g : Graph) :
    (degreeSorted g).length = (nodesList g).length := by
  unfold degreeSorted nodesList
  rw [stableSort_length, List.length_map, List.length_map]

/-! ## Claims C3 and C5 -/

/-- C3, counterexample: with `minWeight = 50`, the record `(A, C, 40)` is
filtered out (40 < 50), so `C` is not even a node of the graph — the
claimed edge `A–C : 40` does not exist. -/
theorem c3_example_counterexample :
    "C" ∉ nodesList (load_data [("A", "B", 60), ("B", "C", 5), ("A", "C", 40)] 50) := by
  decide

/-- C3, amended: on records `[(A,B,60),(B,C,5),(A,C,40)]` with
`minWeight = 50` the graph has exactly the edge `A–B : 60`;
`topPairs(g,1)` is `[((A,B),60)]`; and `shortestPath(g,B,C)` raises an
uncaught `NodeNotFound` exception (an error, not an absent result),
because `C` is not a node of the graph. -/
theorem c3_example_amended :
    edgesData (load_data [("A", "B", 60), ("B", "C", 5), ("A", "C", 40)] 50) =
      [("A", "B", 60)]
    ∧ top_strongest_pairs
        (load_data [("A", "B", 60), ("B", "C", 5), ("A", "C", 40)] 50) 1 =
      [(("A", "B"), 60)]
    ∧ shortest_path
        (load_data [("A", "B", 60), ("B", "C", 5), ("A", "C", 40)] 50) "B" "C" =
      Except.error PyErr.nodeNotFound := by
  refine ⟨by decide, by decide, by decide⟩

/-- C5, counterexample: Python slicing makes `top_n = -1` return all but
the last entry, not the empty list — on a two-node graph the result is
nonempty. -/
theorem c5_top_connected_counterexample :
    top_connected_characters (load_data [("A", "B", 3)] 1) (-1) = [("A", 1)]
    ∧ [("A", 1)] ≠ ([] : List (String × Nat)) := by
  refine ⟨by decide, by decide⟩

/-- C5, amended: `topConnected(g, n)` is always sorted by non-increasing
degree; for `n ≥ 0` it has at most `min(n, |nodes|)` entries; if `n`
reaches the node count it returns the whole sorted degree list, whose
nodes are a permutation of all nodes; `n = 0` returns the empty list; but
a negative `n` follows Python slice semantics and returns the first
`|nodes| - |n|` entries (not the empty list). -/
theorem c5_top_connected_spec (g : Graph) (n : Int) :
    List.Pairwise (fun a b => b.2 ≤ a.2) (top_connected_characters g n)
    ∧ (0 ≤ n → (top_connected_characters g n).length ≤
        min n.toNat (nodesList g).length)
    ∧ (((nodesList g).length : Int) ≤ n →
        top_connected_characters g n = degreeSorted g
        ∧ List.Perm ((degreeSorted g).map Prod.fst) (nodesList g))
    ∧ (n = 0 → top_connected_characters g n = [])
    ∧ (n < 0 → (top_connected_characters g n).length =
        (nodesList g).length - (-n).toNat) := by
  have htrans : ∀ a b c : String × Nat,
      (fun a b : String × Nat => decide (b.2 ≤ a.2)) a b = true →
      (fun a b : String × Nat => decide (b.2 ≤ a.2)) b c = true →
      (fun a b : String × Nat => decide (b.2 ≤ a.2)) a c = true := by
    intro a b c h1 h2
    simp only [decide_eq_true_eq] at h1 h2 ⊢
    omega
  have htot : ∀ a b : String × Nat,
      (fun a b : String × Nat => decide (b.2 ≤ a.2)) a b = true ∨
      (fun a b : String × Nat => decide (b.2 ≤ a.2)) b a = true := by
    intro a b
    simp only [decide_eq_true_eq]
    omega
  have hsorted : (degreeSorted g).Pairwise
      (fun a b : String × Nat => b.2 ≤ a.2) := by
    have h := stableSort_pairwise htrans htot
      (g.map fun p => (p.1, pyDegree p.2 p.1))
    exact h.imp (fun hab => of_decide_eq_true hab)
  refine ⟨?_, ?_, ?_, ?_, ?_⟩
  · exact hsorted.sublist (pyTake_sublist n (degreeSorted g))
  · intro hn
    unfold top_connected_characters
    rw [pyTake_nonneg hn, List.length_take, degreeSorted_length]
  · intro hn
    have h0 : (0 : Int) ≤ n := le_trans (by positivity) hn
    have hlen : (degreeSorted g).length ≤ n.toNat := by
      rw [degreeSorted_length]
      omega
    constructor
    · unfold top_connected_characters
      rw [pyTake_nonneg h0]
      exact List.take_of_length_le hlen
    · have hperm := (stableSort_perm
        (fun a b : String × Nat => decide (b.2 ≤ a.2))
        (g.map fun p => (p.1, pyDegree p.2 p.1))).map Prod.fst
      have heq : (g.map fun p => (p.1, pyDegree p.2 p.1)).map Prod.fst =
          nodesList g := by
        rw [List.map_map]
        rfl
      rw [heq] at hperm
      exact hperm
  · intro hn
    subst hn
    rfl
  · intro hn
    unfold top_connected_characters
    rw [pyTake_neg hn, List.length_take, degreeSorted_length]
    omega

/-- C5 witness: hypotheses discharged at `n = 1` on a concrete graph. -/
theorem c5_top_connected_spec_witness :
    (0 : Int) ≤ 1
    ∧ (top_connected_characters (load_data [("A", "B", 3)] 1) 1).length ≤
        min (1 : Int).toNat (nodesList (load_data [("A", "B", 3)] 1)).length :=
  ⟨by decide,
    (c5_top_connected_spec (load_data [("A", "B", 3)] 1) 1).2.1 (by decide)⟩

/-! ## Claim C2 -/

/-- C2, counterexample: for a character that is not a node, the code
raises Python's builtin `KeyError` (at `graph[character]`) — an untyped
crash, not the specification's typed `NotFound` result variant. -/
theorem c2_character_stats_counterexample :
    character_stats (load_data [("A", "B", 3)] 1) "C" =
      Except.error PyErr.keyError
    ∧ (Except.error PyErr.keyError : Except PyErr Stats) ≠
        Except.error PyErr.notFound := by
  refine ⟨by decide, by decide⟩

/-- C2, amended: `character_stats` fails with an *untyped* Python
exception when the character has zero incident edges — `KeyError` when it
is not a node, `ValueError` (from `max()` over the empty neighbour view)
when it is an isolated node — and never with the specification's typed
`NotFound` variant; when the character has at least one edge it succeeds
and returns the stats record. -/
theorem c2_character_stats_spec (g : Graph) (c : String) :
    (c ∉ nodesList g → character_stats g c = Except.error PyErr.keyError)
    ∧ (c ∈ nodesList g → lookupAdj g c = [] →
        character_stats g c = Except.error PyErr.valueError)
    ∧ (lookupAdj g c ≠ [] → c ∈ nodesList g →
        ∃ st, character_stats g c = Except.ok st
          ∧ st.family = get_family c
          ∧ st.unique_co_appearances = (lookupAdj g c).length
          ∧ st.total_scenes = ((lookupAdj g c).map Prod.snd).foldl (· + ·) 0)
    ∧ character_stats g c ≠ Except.error PyErr.notFound := by
  by_cases hmem : c ∈ nodesList g
  · have hcont : (nodesList g).contains c = true := containsB_of_mem hmem
    unfold character_stats
    rw [if_pos hcont]
    cases hadj : lookupAdj g c with
    | nil =>
      refine ⟨fun h => absurd hmem h, fun _ _ => rfl,
        fun hne _ => absurd rfl hne, ?_⟩
      intro h
      exact PyErr.noConfusion (Except.error.inj h)
    | cons n0 rest =>
      refine ⟨fun h => absurd hmem h, fun _ h => List.noConfusion h,
        ?_, fun h => Except.noConfusion h⟩
      intro _ _
      exact ⟨_, rfl, rfl, rfl, rfl⟩
  · have hcont : (nodesList g).contains c = false := by
      cases hb : (nodesList g).contains c with
      | false => rfl
      | true => exact absurd (List.elem_iff.mp hb) hmem
    unfold character_stats
    rw [if_neg (by rw [hcont]; exact Bool.false_ne_true)]
    refine ⟨fun _ => rfl, fun h => absurd h hmem, fun _ h => absurd h hmem, ?_⟩
    intro h
    exact PyErr.noConfusion (Except.error.inj h)

/-- C2 witness: the absent-character hypothesis discharged on a concrete
graph. -/
theorem c2_character_stats_spec_witness :
    "Z" ∉ nodesList (load_data [("A", "B", 3)] 1)
    ∧ character_stats (load_data [("A", "B", 3)] 1) "Z" =
        Except.error PyErr.keyError :=
  ⟨by decide,
    (c2_character_stats_spec (load_data [("A", "B", 3)] 1) "Z").1 (by decide)⟩

/-! ## Structural lemmas about the graph model -/

theorem lookupAdj_not_mem {g : Graph} {u : String}
    (h : u ∉ nodesList g) : lookupAdj g u = [] := by
  unfold lookupAdj
  cases hf : g.find? (fun p => p.1 == u) with
  | none => rfl
  | some p =>
    exfalso
    have hp := List.mem_of_find?_eq_some hf
    have hq := List.find?_some hf
    rw [beq_iff_eq] at hq
    exact h (List.mem_map.mpr ⟨p, hp, hq⟩)

theorem mem_of_lookupAdj {g : Graph} {u : String} (h : u ∈ nodesList g) :
    (u, lookupAdj g u) ∈ g := by
  unfold lookupAdj
  cases hf : g.find? (fun p => p.1 == u) with
  | none =>
    exfalso
    rw [List.find?_eq_none] at hf
    obtain ⟨p, hp, hpu⟩ := List.mem_map.mp h
    exact hf p hp (by rw [beq_iff_eq]; exact hpu)
  | some p =>
    have hp := List.mem_of_find?_eq_some hf
    have hq := List.find?_some hf
    rw [beq_iff_eq] at hq
    rw [← hq]
    exact hp

theorem lookupAdj_eq_of_mem {g : Graph} (hnd : (nodesList g).Nodup)
    {u : String} {nbrs : List (String × Int)} (h : (u, nbrs) ∈ g) :
    lookupAdj g u = nbrs := by
  induction g with
  | nil => cases h
  | cons p rest ih =>
    simp only [nodesList, List.map_cons, List.nodup_cons] at hnd
    rw [List.mem_cons] at h
    unfold lookupAdj
    rw [List.find?_cons]
    rcases h with h | h
    · rw [← h]
      simp
    · have hu : u ∈ rest.map Prod.fst := List.mem_map.mpr ⟨_, h, rfl⟩
      cases hb : (p.1 == u) with
      | true =>
        rw [beq_iff_eq] at hb
        exact absurd (hb ▸ hu) hnd.1
      | false =>
        have hres := ih hnd.2 h
        unfold lookupAdj at hres
        exact hres

theorem ensureNode_nodes {g : Graph} {u x : String} :
    x ∈ nodesList (ensureNode g u) ↔ x ∈ nodesList g ∨ x = u := by
  unfold ensureNode
  by_cases h : (nodesList g).contains u = true
  · rw [if_pos h]
    have hu : u ∈ nodesList g := List.elem_iff.mp h
    constructor
    · exact Or.inl
    · rintro (hx | rfl)
      · exact hx
      · exact hu
  · rw [if_neg (by rw [Bool.not_eq_true] at h; rw [h]; exact Bool.false_ne_true)]
    unfold nodesList
    rw [List.map_append, List.mem_append]
    simp [nodesList]

theorem ensureNode_lookupAdj (g : Graph) (u x : String) :
    lookupAdj (ensureNode g u) x = lookupAdj g x := by
  unfold ensureNode
  by_cases h : (nodesList g).contains u = true
  · rw [if_pos h]
  · rw [if_neg (by rw [Bool.not_eq_true] at h; rw [h]; exact Bool.false_ne_true)]
    rw [Bool.not_eq_true] at h
    unfold lookupAdj
    rw [List.find?_append]
    cases hf : g.find? (fun p => p.1 == x) with
    | some p => rfl
    | none =>
      simp only [Option.none_orElse]
      cases hb : (u == x) with
      | true =>
        rw [beq_iff_eq] at hb
        subst hb
        have : lookupAdj g u = [] := by
          unfold lookupAdj
          rw [hf]
        rw [← this]
        simp [List.find?]
      | false =>
        simp [List.find?, hb]

theorem ensureNode_nodup {g : Graph} (hnd : (nodesList g).Nodup)
    (u : String) : (nodesList (ensureNode g u)).Nodup := by
  unfold ensureNode
  by_cases h : (nodesList g).contains u = true
  · rw [if_pos h]
    exact hnd
  · rw [if_neg (by rw [Bool.not_eq_true] at h; rw [h]; exact Bool.false_ne_true)]
    rw [Bool.not_eq_true] at h
    have hu : u ∉ nodesList g := by
      intro hmem
      rw [containsB_of_mem hmem] at h
      cases h
    unfold nodesList
    rw [List.map_append]
    simp only [List.map_cons, List.map_nil]
    exact List.Nodup.append hnd (List.nodup_singleton u)
      (by intro x hx hx2; rw [List.mem_singleton] at hx2; subst hx2; exact hu hx)

theorem ensureNode_entry {g : Graph} {u : String} {p : String × List (String × Int)}
    (h : p ∈ ensureNode g u) : p ∈ g ∨ p = (u, []) := by
  unfold ensureNode at h
  by_cases hc : (nodesList g).contains u = true
  · rw [if_pos hc] at h
    exact Or.inl h
  · rw [if_neg (by rw [Bool.not_eq_true] at hc; rw [hc]; exact Bool.false_ne_true)] at h
    rcases List.mem_append.mp h with h | h
    · exact Or.inl h
    · rw [List.mem_singleton] at h
      exact Or.inr h

/-- Mapping a key-preserving function over an association list keeps the
key list (generic version). -/
theorem keys_map_keepG {β : Type} (l : List (String × β))
    (g : String × β → String × β) (hg : ∀ p, (g p).1 = p.1) :
    (l.map g).map Prod.fst = l.map Prod.fst := by
  induction l with
  | nil => rfl
  | cons p t ih => simp [hg, ih]

theorem setW_keys_mem {nbrs : List (String × Int)} {v y : String} {w : Int} :
    y ∈ (setW nbrs v w).map Prod.fst ↔ y ∈ nbrs.map Prod.fst ∨ y = v := by
  unfold setW
  by_cases h : (nbrs.map Prod.fst).contains v = true
  · rw [if_pos h]
    have hv : v ∈ nbrs.map Prod.fst := List.elem_iff.mp h
    have hkeys : (nbrs.map (fun q => if q.1 = v then (v, w) else q)).map Prod.fst
        = nbrs.map Prod.fst :=
      keys_map_keepG nbrs _ (fun q => by by_cases hq : q.1 = v <;> simp [hq])
    rw [hkeys]
    constructor
    · exact Or.inl
    · rintro (hy | rfl)
      · exact hy
      · exact hv
  · rw [if_neg (by rw [Bool.not_eq_true] at h; rw [h]; exact Bool.false_ne_true)]
    rw [List.map_append, List.mem_append]
    simp

theorem setW_keys_nodup {nbrs : List (String × Int)} {v : String} {w : Int}
    (h : (nbrs.map Prod.fst).Nodup) :
    ((setW nbrs v w).map Prod.fst).Nodup := by
  unfold setW
  by_cases hc : (nbrs.map Prod.fst).contains v = true
  · rw [if_pos hc]
    rw [keys_map_keepG nbrs _ (fun q => by by_cases hq : q.1 = v <;> simp [hq])]
    exact h
  · rw [if_neg (by rw [Bool.not_eq_true] at hc; rw [hc]; exact Bool.false_ne_true)]
    rw [Bool.not_eq_true] at hc
    have hv : v ∉ nbrs.map Prod.fst := by
      intro hmem
      rw [containsB_of_mem hmem] at hc
      cases hc
    rw [List.map_append]
    simp only [List.map_cons, List.map_nil]
    exact List.Nodup.append h (List.nodup_singleton v)
      (by intro x hx hx2; rw [List.mem_singleton] at hx2; subst hx2; exact hv hx)

theorem setW_entry {nbrs : List (String × Int)} {v : String} {w : Int}
    {q : String × Int} (h : q ∈ setW nbrs v w) : q ∈ nbrs ∨ q.1 = v := by
  unfold setW at h
  by_cases hc : (nbrs.map Prod.fst).contains v = true
  · rw [if_pos hc] at h
    obtain ⟨q', hq', hfq⟩ := List.mem_map.mp h
    by_cases hqv : q'.1 = v
    · rw [if_pos hqv] at hfq
      right
      rw [← hfq]
    · rw [if_neg hqv] at hfq
      left
      rw [← hfq]
      exact hq'
  · rw [if_neg (by rw [Bool.not_eq_true] at hc; rw [hc]; exact Bool.false_ne_true)] at h
    rcases List.mem_append.mp h with h | h
    · exact Or.inl h
    · rw [List.mem_singleton] at h
      right
      rw [h]

theorem updAdj_nodes (g : Graph) (u v : String) (w : Int) :
    nodesList (updAdj g u v w) = nodesList g :=
  keys_map_keepG g _ (fun p => by by_cases hp : p.1 = u <;> simp [hp])

theorem updAdj_lookup_ne {g : Graph} {u x : String} (v : String) (w : Int)
    (hx : ¬ x = u) : lookupAdj (updAdj g u v w) x = lookupAdj g x := by
  induction g with
  | nil => rfl
  | cons p rest ih =>
    unfold updAdj at ih ⊢
    rw [List.map_cons]
    unfold lookupAdj
    rw [List.find?_cons, List.find?_cons]
    have hkey : (if p.1 = u then (p.1, setW p.2 v w) else p).1 = p.1 := by
      by_cases hp : p.1 = u <;> simp [hp]
    rw [hkey]
    cases hb : (p.1 == x) with
    | true =>
      rw [beq_iff_eq] at hb
      have hpu : ¬ p.1 = u := by rw [hb]; exact hx
      rw [if_neg hpu]
    | false =>
      unfold lookupAdj at ih
      exact ih

theorem updAdj_lookup_self {g : Graph} {u : String} (v : String) (w : Int)
    (hu : u ∈ nodesList g) :
    lookupAdj (updAdj g u v w) u = setW (lookupAdj g u) v w := by
  induction g with
  | nil => cases hu
  | cons p rest ih =>
    unfold updAdj at ih ⊢
    rw [List.map_cons]
    unfold lookupAdj
    rw [List.find?_cons, List.find?_cons]
    have hkey : (if p.1 = u then (p.1, setW p.2 v w) else p).1 = p.1 := by
      by_cases hp : p.1 = u <;> simp [hp]
    rw [hkey]
    cases hb : (p.1 == u) with
    | true =>
      rw [beq_iff_eq] at hb
      rw [if_pos hb]
    | false =>
      have hbne : ¬ p.1 = u := by
        rw [← beq_iff_eq]
        rw [hb]
        exact Bool.false_ne_true
      have hu' : u ∈ nodesList rest := by
        simp only [nodesList, List.map_cons, List.mem_cons] at hu
        rcases hu with hu | hu
        · exact absurd hu.symm hbne
        · exact hu
      unfold lookupAdj at ih
      exact ih hu'

theorem updAdj_entry {g : Graph} {u v : String} {w : Int}
    {p : String × List (String × Int)} (h : p ∈ updAdj g u v w) :
    ∃ q ∈ g, p = q ∨ (q.1 = u ∧ p = (q.1, setW q.2 v w)) := by
  obtain ⟨q, hq, hfq⟩ := List.mem_map.mp h
  refine ⟨q, hq, ?_⟩
  by_cases hqu : q.1 = u
  · rw [if_pos hqu] at hfq
    exact Or.inr ⟨hqu, hfq.symm⟩
  · rw [if_neg hqu] at hfq
    exact Or.inl hfq.symm

/-- Stored adjacency of the graph model. -/
def adjMem (g : Graph) (x y : String) : Prop := y ∈ nbrKeys g x

/-- Effect of `add_edge` on stored adjacency: exactly the unordered pair
`{u, v}` is added. -/
theorem adjMem_add_edge (g : Graph) (u v : String) (w : Int) (x y : String) :
    adjMem (add_edge g u v w) x y ↔
      adjMem g x y ∨ (x = u ∧ y = v) ∨ (x = v ∧ y = u) := by
  unfold add_edge adjMem nbrKeys
  have hg2look : ∀ z, lookupAdj (ensureNode (ensureNode g u) v) z = lookupAdj g z := by
    intro z
    rw [ensureNode_lookupAdj, ensureNode_lookupAdj]
  have hu2 : u ∈ nodesList (ensureNode (ensureNode g u) v) := by
    rw [ensureNode_nodes]
    left
    rw [ensureNode_nodes]
    right
    rfl
  have hv2 : v ∈ nodesList (ensureNode (ensureNode g u) v) := by
    rw [ensureNode_nodes]
    right
    rfl
  have hvA : v ∈ nodesList (updAdj (ensureNode (ensureNode g u) v) u v w) := by
    rw [updAdj_nodes]
    exact hv2
  by_cases hxv : x = v
  · subst hxv
    rw [updAdj_lookup_self u w hvA]
    rw [setW_keys_mem]
    by_cases hxu : x = u
    · subst hxu
      rw [updAdj_lookup_self x w hu2, hg2look, setW_keys_mem]
      simp only [eq_self_iff_true, true_and]
      tauto
    · rw [updAdj_lookup_ne x w hxu, hg2look]
      simp only [eq_self_iff_true, true_and, hxu, false_and, false_or]
  · rw [updAdj_lookup_ne u w hxv]
    by_cases hxu : x = u
    · subst hxu
      rw [updAdj_lookup_self v w hu2, hg2look, setW_keys_mem]
      simp only [eq_self_iff_true, true_and, hxv, false_and, or_false]
    · rw [updAdj_lookup_ne v w hxu, hg2look]
      simp only [hxu, hxv, false_and, false_or, or_false]

theorem adjMem_symm {g : Graph} (hw : WF g) {x y : String}
    (h : adjMem g x y) : adjMem g y x := by
  obtain ⟨hnd, hnbr, hcl, hsym⟩ := hw
  obtain ⟨q, hq, hqy⟩ := List.mem_map.mp h
  by_cases hx : x ∈ nodesList g
  · have hent := mem_of_lookupAdj hx
    have hres := hsym (x, lookupAdj g x) hent q hq
    rw [hqy] at hres
    exact hres
  · rw [lookupAdj_not_mem hx] at hq
    cases hq

theorem adjMem_nodes {g : Graph} (hw : WF g) {x y : String}
    (h : adjMem g x y) : x ∈ nodesList g ∧ y ∈ nodesList g := by
  obtain ⟨hnd, hnbr, hcl, hsym⟩ := hw
  obtain ⟨q, hq, hqy⟩ := List.mem_map.mp h
  by_cases hx : x ∈ nodesList g
  · have hent := mem_of_lookupAdj hx
    have hy := hcl (x, lookupAdj g x) hent q hq
    rw [hqy] at hy
    exact ⟨hx, hy⟩
  · rw [lookupAdj_not_mem hx] at hq
    cases hq

theorem WF_add_edge {g : Graph} (hw : WF g) (u v : String) (w : Int) :
    WF (add_edge g u v w) := by
  have hnodB : (nodesList (add_edge g u v w)).Nodup := by
    show (nodesList (updAdj (updAdj (ensureNode (ensureNode g u) v) u v w) v u w)).Nodup
    rw [updAdj_nodes, updAdj_nodes]
    exact ensureNode_nodup (ensureNode_nodup hw.1 u) v
  have hmemB : ∀ z, z ∈ nodesList g ∨ z = u ∨ z = v →
      z ∈ nodesList (add_edge g u v w) := by
    intro z hz
    show z ∈ nodesList (updAdj (updAdj (ensureNode (ensureNode g u) v) u v w) v u w)
    rw [updAdj_nodes, updAdj_nodes, ensureNode_nodes, ensureNode_nodes]
    tauto
  refine ⟨hnodB, ?_, ?_, ?_⟩
  · intro p hp
    obtain ⟨q, hq, hpq⟩ := updAdj_entry hp
    obtain ⟨r, hr, hqr⟩ := updAdj_entry hq
    have hr2 : (r.2.map Prod.fst).Nodup := by
      rcases ensureNode_entry hr with hr' | rfl
      · rcases ensureNode_entry hr' with hr'' | rfl
        · exact hw.2.1 r hr''
        · simp
      · simp
    have hq2 : (q.2.map Prod.fst).Nodup := by
      rcases hqr with rfl | ⟨_, rfl⟩
      · exact hr2
      · exact setW_keys_nodup hr2
    rcases hpq with rfl | ⟨_, rfl⟩
    · exact hq2
    · exact setW_keys_nodup hq2
  · intro p hp q' hq'
    obtain ⟨q, hq, hpq⟩ := updAdj_entry hp
    obtain ⟨r, hr, hqr⟩ := updAdj_entry hq
    have hq'q : q' ∈ q.2 ∨ q'.1 = u := by
      rcases hpq with rfl | ⟨_, rfl⟩
      · exact Or.inl hq'
      · rcases setW_entry hq' with h1 | h1
        · exact Or.inl h1
        · exact Or.inr h1
    have hq'r : q' ∈ r.2 ∨ q'.1 = u ∨ q'.1 = v := by
      rcases hq'q with hq'' | h1
      · rcases hqr with rfl | ⟨_, rfl⟩
        · exact Or.inl hq''
        · rcases setW_entry hq'' with h2 | h2
          · exact Or.inl h2
          · exact Or.inr (Or.inr h2)
      · exact Or.inr (Or.inl h1)
    apply hmemB
    rcases hq'r with h1 | h1 | h1
    · rcases ensureNode_entry hr with hr' | rfl
      · rcases ensureNode_entry hr' with hr'' | rfl
        · exact Or.inl (hw.2.2.1 r hr'' q' h1)
        · cases h1
      · cases h1
    · exact Or.inr (Or.inl h1)
    · exact Or.inr (Or.inr h1)
  · intro p hp q hq
    have hlook : lookupAdj (add_edge g u v w) p.1 = p.2 :=
      lookupAdj_eq_of_mem hnodB hp
    have hadj : adjMem (add_edge g u v w) p.1 q.1 := by
      unfold adjMem nbrKeys
      rw [hlook]
      exact List.mem_map.mpr ⟨q, hq, rfl⟩
    have hres := (adjMem_add_edge g u v w p.1 q.1).mp hadj
    show p.1 ∈ nbrKeys (add_edge g u v w) q.1
    have : adjMem (add_edge g u v w) q.1 p.1 := by
      apply (adjMem_add_edge g u v w q.1 p.1).mpr
      rcases hres with h1 | ⟨h1, h2⟩ | ⟨h1, h2⟩
      · exact Or.inl (adjMem_symm hw h1)
      · exact Or.inr (Or.inr ⟨h2, h1⟩)
      · exact Or.inr (Or.inl ⟨h2, h1⟩)
    exact this

theorem WF_load_data (rs : List (String × String × Int)) (m : Int) :
    WF (load_data rs m) := by
  unfold load_data
  suffices h : ∀ g0 : Graph, WF g0 →
      WF (rs.foldl (fun g r =>
        if m ≤ r.2.2 then add_edge g r.1 r.2.1 r.2.2 else g) g0) by
    exact h [] (by decide)
  intro g0 hg0
  induction rs generalizing g0 with
  | nil => exact hg0
  | cons r t ih =>
    rw [List.foldl_cons]
    by_cases hr : m ≤ r.2.2
    · rw [if_pos hr]
      exact ih _ (WF_add_edge hg0 r.1 r.2.1 r.2.2)
    · rw [if_neg hr]
      exact ih _ hg0

theorem adjMem_foldl (rs : List (String × String × Int)) (m : Int)
    (x y : String) : ∀ g0 : Graph,
    adjMem (rs.foldl (fun g r =>
        if m ≤ r.2.2 then add_edge g r.1 r.2.1 r.2.2 else g) g0) x y ↔
      adjMem g0 x y ∨ ∃ r ∈ rs, m ≤ r.2.2 ∧
        (x = r.1 ∧ y = r.2.1 ∨ x = r.2.1 ∧ y = r.1) := by
  induction rs with
  | nil =>
    intro g0
    simp
  | cons r t ih =>
    intro g0
    rw [List.foldl_cons]
    by_cases hr : m ≤ r.2.2
    · rw [if_pos hr, ih, adjMem_add_edge]
      constructor
      · rintro ((h | ⟨h1, h2⟩ | ⟨h1, h2⟩) | ⟨r', hr', hw', hxy⟩)
        · exact Or.inl h
        · exact Or.inr ⟨r, List.mem_cons_self r t, hr, Or.inl ⟨h1, h2⟩⟩
        · exact Or.inr ⟨r, List.mem_cons_self r t, hr, Or.inr ⟨h1, h2⟩⟩
        · exact Or.inr ⟨r', List.mem_cons_of_mem _ hr', hw', hxy⟩
      · rintro (h | ⟨r', hr', hw', hxy⟩)
        · exact Or.inl (Or.inl h)
        · rcases List.mem_cons.mp hr' with rfl | hr''
          · rcases hxy with ⟨h1, h2⟩ | ⟨h1, h2⟩
            · exact Or.inl (Or.inr (Or.inl ⟨h1, h2⟩))
            · exact Or.inl (Or.inr (Or.inr ⟨h1, h2⟩))
          · exact Or.inr ⟨r', hr'', hw', hxy⟩
    · rw [if_neg hr, ih]
      constructor
      · rintro (h | ⟨r', hr', hw', hxy⟩)
        · exact Or.inl h
        · exact Or.inr ⟨r', List.mem_cons_of_mem _ hr', hw', hxy⟩
      · rintro (h | ⟨r', hr', hw', hxy⟩)
        · exact Or.inl h
        · rcases List.mem_cons.mp hr' with rfl | hr''
          · exact absurd hw' hr
          · exact Or.inr ⟨r', hr'', hw', hxy⟩

theorem adjMem_load_data (rs : List (String × String × Int)) (m : Int)
    (x y : String) :
    adjMem (load_data rs m) x y ↔
      ∃ r ∈ rs, m ≤ r.2.2 ∧
        (x = r.1 ∧ y = r.2.1 ∨ x = r.2.1 ∧ y = r.1) := by
  unfold load_data
  rw [adjMem_foldl]
  have hempty : ¬ adjMem [] x y := by
    unfold adjMem nbrKeys lookupAdj
    simp [List.find?]
  constructor
  · rintro (h | h)
    · exact absurd h hempty
    · exact h
  · intro h
    exact Or.inr h

theorem edgesAux_cons (u : String) (nbrs : List (String × Int))
    (rest : Graph) (seen : List String) :
    edgesAux ((u, nbrs) :: rest) seen =
      ((nbrs.filter (fun q => !seen.contains q.1)).map
        (fun q => (u, q.1, q.2))) ++ edgesAux rest (u :: seen) := rfl

/-- Every reported edge has its first endpoint among the remaining keys,
its second endpoint outside `seen`, and is backed by a stored adjacency
entry. -/
theorem edgesAux_mem_facts : ∀ (l : Graph) (seen : List String)
    {a b : String} {w : Int}, (a, b, w) ∈ edgesAux l seen →
    a ∈ l.map Prod.fst ∧ b ∉ seen ∧ ∃ nbrs, (a, nbrs) ∈ l ∧ (b, w) ∈ nbrs := by
  intro l
  induction l with
  | nil =>
    intro seen a b w h
    cases h
  | cons p rest ih =>
    intro seen a b w h
    obtain ⟨u, nbrs⟩ := p
    rw [edgesAux_cons] at h
    rcases List.mem_append.mp h with h | h
    · obtain ⟨q, hq, hfq⟩ := List.mem_map.mp h
      have hq' := List.mem_filter.mp hq
      injection hfq with h1 h23
      injection h23 with h2 h3
      subst h1
      refine ⟨List.mem_cons_self _ _, ?_, nbrs, List.mem_cons_self _ _, ?_⟩
      · intro hbseen
        have := hq'.2
        rw [h2] at this
        rw [containsB_of_mem hbseen] at this
        cases this
      · rw [← h2, ← h3]
        exact hq'.1
    · obtain ⟨ha, hb, nbrs', hmem, hbw⟩ := ih (u :: seen) h
      refine ⟨?_, ?_, nbrs', List.mem_cons_of_mem _ hmem, hbw⟩
      · rw [List.map_cons]
        exact List.mem_cons_of_mem _ ha
      · intro hbseen
        exact hb (List.mem_cons_of_mem _ hbseen)

/-- The unordered endpoint pairs reported by the edge iterator are
pairwise distinct. -/
theorem edgesAux_pairwise : ∀ (l : Graph) (seen : List String),
    (l.map Prod.fst).Nodup →
    (∀ p ∈ l, (p.2.map Prod.fst).Nodup) →
    List.Pairwise (fun e1 e2 : String × String × Int =>
      s(e1.1, e1.2.1) ≠ s(e2.1, e2.2.1)) (edgesAux l seen) := by
  intro l
  induction l with
  | nil =>
    intro seen _ _
    exact List.Pairwise.nil
  | cons p rest ih =>
    intro seen hnd hnbr
    obtain ⟨u, nbrs⟩ := p
    rw [List.map_cons, List.nodup_cons] at hnd
    rw [edgesAux_cons, List.pairwise_append]
    refine ⟨?_, ?_, ?_⟩
    · rw [List.pairwise_map]
      have hnodup : ((nbrs.filter (fun q => !seen.contains q.1)).map Prod.fst).Nodup := by
        have h0 : (nbrs.map Prod.fst).Nodup :=
          hnbr (u, nbrs) (List.mem_cons_self _ _)
        exact h0.sublist ((List.filter_sublist _).map Prod.fst)
      have hpw : List.Pairwise (fun q1 q2 : String × Int => q1.1 ≠ q2.1)
          (nbrs.filter (fun q => !seen.contains q.1)) := by
        unfold List.Nodup at hnodup
        rw [List.pairwise_map] at hnodup
        exact hnodup
      refine hpw.imp ?_
      intro q1 q2 hne hs
      rcases Sym2.eq_iff.mp hs with ⟨_, h2⟩ | ⟨h1, h2⟩
      · exact hne h2
      · exact hne (h2.trans h1)
    · exact ih (u :: seen) hnd.2 (fun p hp => hnbr p (List.mem_cons_of_mem _ hp))
    · intro e1 he1 e2 he2
      obtain ⟨q, hq, rfl⟩ := List.mem_map.mp he1
      obtain ⟨a2, b2, w2⟩ := e2
      obtain ⟨ha2, hb2, _⟩ := edgesAux_mem_facts rest (u :: seen) he2
      intro hs
      rcases Sym2.eq_iff.mp hs with ⟨h1, _⟩ | ⟨h1, _⟩
      · dsimp only at h1
        exact hnd.1 (h1 ▸ ha2)
      · dsimp only at h1
        exact hb2 (by rw [← h1]; exact List.mem_cons_self _ _)

/-- Every stored adjacency whose endpoints are still unseen is reported
by the edge iterator (in one of its two orientations). -/
theorem edgesAux_complete : ∀ (l : Graph) (seen : List String) {g : Graph}
    {x y : String},
    (∀ p ∈ l, lookupAdj g p.1 = p.2) →
    (∀ a b : String, adjMem g a b → adjMem g b a) →
    x ∈ l.map Prod.fst → adjMem g x y → y ∉ seen → x ∉ seen →
    s(x, y) ∈ (edgesAux l seen).map (fun e => s(e.1, e.2.1)) := by
  intro l
  induction l with
  | nil =>
    intro seen g x y _ _ hx _ _ _
    cases hx
  | cons p rest ih =>
    intro seen g x y hlook hsym hx hadj hyseen hxseen
    obtain ⟨u, nbrs⟩ := p
    rw [edgesAux_cons, List.map_append, List.mem_append]
    by_cases hxu : x = u
    · left
      subst hxu
      have hnb : lookupAdj g x = nbrs := hlook (x, nbrs) (List.mem_cons_self _ _)
      obtain ⟨q, hq, hqy⟩ := List.mem_map.mp
        (show y ∈ (lookupAdj g x).map Prod.fst from hadj)
      rw [hnb] at hq
      rw [List.map_map]
      apply List.mem_map.mpr
      refine ⟨q, List.mem_filter.mpr ⟨hq, ?_⟩, ?_⟩
      · show (!seen.contains q.1) = true
        rw [hqy]
        have hc : seen.contains y = false := by
          cases hb : seen.contains y with
          | false => rfl
          | true => exact absurd (List.elem_iff.mp hb) hyseen
        rw [hc]
        rfl
      · show s(x, q.1) = s(x, y)
        rw [hqy]
    · by_cases hyu : y = u
      · left
        subst hyu
        have hadj' := hsym x y hadj
        have hnb : lookupAdj g y = nbrs := hlook (y, nbrs) (List.mem_cons_self _ _)
        obtain ⟨q, hq, hqx⟩ := List.mem_map.mp
          (show x ∈ (lookupAdj g y).map Prod.fst from hadj')
        rw [hnb] at hq
        rw [List.map_map]
        apply List.mem_map.mpr
        refine ⟨q, List.mem_filter.mpr ⟨hq, ?_⟩, ?_⟩
        · show (!seen.contains q.1) = true
          rw [hqx]
          have hc : seen.contains x = false := by
            cases hb : seen.contains x with
            | false => rfl
            | true => exact absurd (List.elem_iff.mp hb) hxseen
          rw [hc]
          rfl
        · show s(y, q.1) = s(x, y)
          rw [hqx]
          exact Sym2.eq_swap
      · right
        have hx' : x ∈ rest.map Prod.fst := by
          rw [List.map_cons] at hx
          rcases List.mem_cons.mp hx with h1 | h1
          · exact absurd h1 hxu
          · exact h1
        apply ih (u :: seen) (fun p hp => hlook p (List.mem_cons_of_mem _ hp))
          hsym hx' hadj
        · intro hmem
          rcases List.mem_cons.mp hmem with h1 | h1
          · exact hyu h1
          · exact hyseen h1
        · intro hmem
          rcases List.mem_cons.mp hmem with h1 | h1
          · exact hxu h1
          · exact hxseen h1

/-- The unordered endpoint pairs of the reported edge list. -/
def edgeSym2 (g : Graph) : List (Sym2 String) :=
  (edgesData g).map (fun e => s(e.1, e.2.1))

theorem edgeSym2_nodup {g : Graph} (hw : WF g) : (edgeSym2 g).Nodup := by
  unfold edgeSym2 edgesData
  have hp := edgesAux_pairwise g [] hw.1 hw.2.1
  unfold List.Nodup
  rw [List.pairwise_map]
  exact hp

theorem mem_edgeSym2 {g : Graph} (hw : WF g) {x y : String} :
    s(x, y) ∈ edgeSym2 g ↔ adjMem g x y := by
  constructor
  · intro h
    obtain ⟨e, he, hse⟩ := List.mem_map.mp h
    obtain ⟨a, b, w⟩ := e
    obtain ⟨_, _, nbrs, hmem, hbw⟩ := edgesAux_mem_facts g [] he
    have hl : lookupAdj g a = nbrs := lookupAdj_eq_of_mem hw.1 hmem
    have hab : adjMem g a b := by
      unfold adjMem nbrKeys
      rw [hl]
      exact List.mem_map.mpr ⟨(b, w), hbw, rfl⟩
    dsimp only at hse
    rcases Sym2.eq_iff.mp hse with ⟨rfl, rfl⟩ | ⟨rfl, rfl⟩
    · exact hab
    · exact adjMem_symm hw hab
  · intro h
    unfold edgeSym2 edgesData
    exact edgesAux_complete g []
      (fun p hp => lookupAdj_eq_of_mem hw.1 hp)
      (fun a b hab => adjMem_symm hw hab)
      (adjMem_nodes hw h).1 h
      (List.not_mem_nil y) (List.not_mem_nil x)

theorem edgesData_length_eq_card {g : Graph} (hw : WF g) :
    (edgesData g).length = (edgeSym2 g).toFinset.card := by
  rw [List.toFinset_card_of_nodup (edgeSym2_nodup hw)]
  unfold edgeSym2
  rw [List.length_map]

/-- C6 (confirmed): for a fixed record sequence, raising the weight
threshold never increases the number of edges of the built graph. -/
theorem c6_edge_monotone (rs : List (String × String × Int))
    (m1 m2 : Int) (h : m1 ≤ m2) :
    (edgesData (load_data rs m2)).length ≤
      (edgesData (load_data rs m1)).length := by
  rw [edgesData_length_eq_card (WF_load_data rs m2),
      edgesData_length_eq_card (WF_load_data rs m1)]
  apply Finset.card_le_card
  intro z
  induction z using Sym2.ind with
  | _ x y =>
    intro hz
    rw [List.mem_toFinset] at hz
    rw [List.mem_toFinset]
    rw [mem_edgeSym2 (WF_load_data rs m2)] at hz
    rw [mem_edgeSym2 (WF_load_data rs m1)]
    rw [adjMem_load_data] at hz
    rw [adjMem_load_data]
    obtain ⟨r, hr, hwr, hxy⟩ := hz
    exact ⟨r, hr, le_trans h hwr, hxy⟩

/-- C6 witness: thresholds 1 ≤ 2 on a concrete record list (the higher
threshold drops one edge). -/
theorem c6_edge_monotone_witness :
    (1 : Int) ≤ 2
    ∧ (edgesData (load_data [("A", "B", 3), ("B", "C", 1)] 2)).length ≤
        (edgesData (load_data [("A", "B", 3), ("B", "C", 1)] 1)).length :=
  ⟨by decide, c6_edge_monotone [("A", "B", 3), ("B", "C", 1)] 1 2 (by decide)⟩

/-! ## Reachability layers and the shortest-path model -/

theorem reachN_zero (g : Graph) (s : String) : reachN g s 0 = [s] := rfl

theorem reachN_succ (g : Graph) (s : String) (k : Nat) :
    reachN g s (k + 1) = reachStep g (reachN g s k) := rfl

theorem mem_reachStep {g : Graph} {S : List String} {v : String} :
    v ∈ reachStep g S ↔ v ∈ S ∨ ∃ u ∈ S, v ∈ nbrKeys g u := by
  unfold reachStep
  rw [List.mem_append]
  constructor
  · rintro (h | h)
    · exact Or.inl h
    · have h' := List.mem_filter.mp h
      exact Or.inr (List.mem_flatMap.mp h'.1)
  · rintro (h | ⟨u, hu, hv⟩)
    · exact Or.inl h
    · by_cases hvS : v ∈ S
      · exact Or.inl hvS
      · right
        refine List.mem_filter.mpr ⟨List.mem_flatMap.mpr ⟨u, hu, hv⟩, ?_⟩
        show (!S.contains v) = true
        have hc : S.contains v = false := by
          cases hb : S.contains v with
          | false => rfl
          | true => exact absurd (List.elem_iff.mp hb) hvS
        rw [hc]
        rfl

theorem reach_subset_succ {g : Graph} {s : String} {k : Nat} {v : String}
    (h : v ∈ reachN g s k) : v ∈ reachN g s (k + 1) := by
  rw [reachN_succ, mem_reachStep]
  exact Or.inl h

theorem reach_mono {g : Graph} {s : String} {k m : Nat} (hkm : k ≤ m)
    {v : String} (h : v ∈ reachN g s k) : v ∈ reachN g s m := by
  induction m with
  | zero =>
    have : k = 0 := Nat.le_zero.mp hkm
    subst this
    exact h
  | succ m ih =>
    rcases Nat.lt_or_ge k (m + 1) with hlt | hge
    · exact reach_subset_succ (ih (Nat.lt_succ_iff.mp hlt))
    · have : k = m + 1 := le_antisymm hkm hge
      subst this
      exact h

theorem reach_stab_step {g : Graph} {s : String} {k : Nat}
    (h : ∀ x, x ∈ reachN g s (k + 1) → x ∈ reachN g s k) :
    ∀ x, x ∈ reachN g s (k + 2) → x ∈ reachN g s (k + 1) := by
  intro x hx
  rw [reachN_succ, mem_reachStep] at hx
  rcases hx with hx | ⟨u, hu, hv⟩
  · exact hx
  · rw [reachN_succ, mem_reachStep]
    exact Or.inr ⟨u, h u hu, hv⟩

theorem reach_stab {g : Graph} {s : String} {k : Nat}
    (h : ∀ x, x ∈ reachN g s (k + 1) → x ∈ reachN g s k) :
    ∀ m, k ≤ m → ∀ x, x ∈ reachN g s m → x ∈ reachN g s k := by
  intro m
  induction m with
  | zero =>
    intro hk x hx
    have : k = 0 := Nat.le_zero.mp hk
    subst this
    exact hx
  | succ m ih =>
    intro hk x hx
    rcases Nat.lt_or_ge k (m + 1) with hlt | hge
    · have hkm : k ≤ m := Nat.lt_succ_iff.mp hlt
      -- first step reach (m+1) → reach m via iterated stabilization
      have hstep : ∀ j, k ≤ j → ∀ x, x ∈ reachN g s (j + 1) → x ∈ reachN g s j := by
        intro j hj
        induction j with
        | zero =>
          have : k = 0 := Nat.le_zero.mp hj
          subst this
          exact h
        | succ j ihj =>
          rcases Nat.lt_or_ge k (j + 1) with hlt2 | hge2
          · exact reach_stab_step (ihj (Nat.lt_succ_iff.mp hlt2))
          · have : k = j + 1 := le_antisymm hj hge2
            subst this
            exact h
      exact ih hkm x (hstep m hkm x hx)
    · have : k = m + 1 := le_antisymm hk hge
      subst this
      exact hx

theorem reach_carrier {g : Graph} (hw : WF g) {s : String} :
    ∀ (k : Nat) {v : String}, v ∈ reachN g s k → v ∈ s :: nodesList g := by
  intro k
  induction k with
  | zero =>
    intro v hv
    rw [reachN_zero, List.mem_singleton] at hv
    subst hv
    exact List.mem_cons_self _ _
  | succ k ih =>
    intro v hv
    rw [reachN_succ, mem_reachStep] at hv
    rcases hv with hv | ⟨u, _, hv⟩
    · exact ih hv
    · exact List.mem_cons_of_mem _ (adjMem_nodes hw hv).2

/-- The reachability layers saturate by `boundN g` steps. -/
theorem reach_saturates {g : Graph} (hw : WF g) (s : String) :
    ∀ x, (∃ k, x ∈ reachN g s k) → x ∈ reachN g s (boundN g) := by
  have key : ∃ j, j ≤ g.length ∧
      (∀ x, x ∈ reachN g s (j + 1) → x ∈ reachN g s j) := by
    by_contra hno
    push_neg at hno
    have grow : ∀ j, j ≤ g.length + 1 → j + 1 ≤ (reachN g s j).toFinset.card := by
      intro j
      induction j with
      | zero =>
        intro _
        rw [reachN_zero]
        simp
      | succ i ihi =>
        intro hle
        obtain ⟨x, hx1, hx0⟩ := hno i (by omega)
        have hsub : (reachN g s i).toFinset ⊆ (reachN g s (i + 1)).toFinset := by
          intro z hz
          rw [List.mem_toFinset] at hz ⊢
          exact reach_subset_succ hz
        have hlt : (reachN g s i).toFinset.card <
            (reachN g s (i + 1)).toFinset.card := by
          apply Finset.card_lt_card
          rw [Finset.ssubset_iff_of_subset hsub]
          exact ⟨x, by rw [List.mem_toFinset]; exact hx1,
            by rw [List.mem_toFinset]; exact hx0⟩
        have := ihi (by omega)
        omega
    have hbig := grow (g.length + 1) le_rfl
    have hsub : (reachN g s (g.length + 1)).toFinset ⊆
        (s :: nodesList g).toFinset := by
      intro z hz
      rw [List.mem_toFinset] at hz ⊢
      exact reach_carrier hw _ hz
    have hcard := Finset.card_le_card hsub
    have hlen : (s :: nodesList g).toFinset.card ≤ g.length + 1 := by
      calc (s :: nodesList g).toFinset.card ≤ (s :: nodesList g).length :=
            List.toFinset_card_le _
        _ = g.length + 1 := by
            rw [List.length_cons]
            unfold nodesList
            rw [List.length_map]
    omega
  obtain ⟨j, hj, hstab⟩ := key
  rintro x ⟨k, hk⟩
  by_cases hkb : k ≤ boundN g
  · exact reach_mono hkb hk
  · have h1 : x ∈ reachN g s j :=
      reach_stab hstab k (by unfold boundN at hkb; omega) x hk
    exact reach_mono (by unfold boundN; omega) h1

theorem getPath_zero (g : Graph) (s t : String) :
    getPath g s 0 t = if t = s then some [s] else none := rfl

theorem getPath_succ (g : Graph) (s t : String) (k : Nat) :
    getPath g s (k + 1) t =
      if (reachN g s k).contains t then getPath g s k t
      else
        match (reachN g s k).find? (fun u => (nbrKeys g u).contains t) with
        | some u => (getPath g s k u).map (fun p => p ++ [t])
        | none => none := rfl

/-- Any path the model returns starts at `s`, ends at `t`, and follows
stored adjacencies. -/
theorem getPath_sound {g : Graph} {s : String} :
    ∀ (k : Nat) {t : String} {p : List String},
    getPath g s k t = some p →
    p.head? = some s ∧ p.getLast? = some t ∧
      List.Chain' (fun a b => b ∈ nbrKeys g a) p := by
  intro k
  induction k with
  | zero =>
    intro t p h
    rw [getPath_zero] at h
    by_cases ht : t = s
    · rw [if_pos ht] at h
      injection h with h
      subst h
      subst ht
      exact ⟨rfl, rfl, List.chain'_singleton t⟩
    · rw [if_neg ht] at h
      cases h
  | succ k ih =>
    intro t p h
    rw [getPath_succ] at h
    by_cases hm : (reachN g s k).contains t = true
    · rw [if_pos hm] at h
      exact ih h
    · rw [if_neg (by rw [Bool.not_eq_true] at hm; rw [hm]; exact Bool.false_ne_true)] at h
      cases hf : (reachN g s k).find? (fun u => (nbrKeys g u).contains t) with
      | none =>
        rw [hf] at h
        have h2 : (none : Option (List String)) = some p := h
        cases h2
      | some u =>
        rw [hf] at h
        have h2 : Option.map (fun p => p ++ [t]) (getPath g s k u) = some p := h
        cases hgp : getPath g s k u with
        | none =>
          rw [hgp] at h2
          cases h2
        | some q =>
          rw [hgp, Option.map_some'] at h2
          injection h2 with h2
          subst h2
          obtain ⟨hh, hl, hc⟩ := ih hgp
          have h3 := List.find?_some hf
          have h4 : (nbrKeys g u).contains t = true := h3
          have hut : t ∈ nbrKeys g u := List.elem_iff.mp h4
          refine ⟨?_, ?_, ?_⟩
          · rw [List.head?_append, hh]
            rfl
          · rw [List.getLast?_append]
            rfl
          · rw [List.chain'_append]
            refine ⟨hc, List.chain'_singleton t, ?_⟩
            intro a ha b hb
            rw [Option.mem_def] at ha hb
            rw [hl] at ha
            injection ha with ha
            injection hb with hb
            subst ha
            subst hb
            exact hut

/-- The model returns a path for every node in the reachability layers. -/
theorem getPath_complete {g : Graph} {s : String} :
    ∀ (k : Nat) {t : String}, t ∈ reachN g s k →
    ∃ p, getPath g s k t = some p := by
  intro k
  induction k with
  | zero =>
    intro t ht
    rw [reachN_zero, List.mem_singleton] at ht
    rw [getPath_zero, if_pos ht]
    exact ⟨[s], rfl⟩
  | succ k ih =>
    intro t ht
    rw [getPath_succ]
    by_cases hm : (reachN g s k).contains t = true
    · rw [if_pos hm]
      exact ih (List.elem_iff.mp hm)
    · rw [if_neg (by rw [Bool.not_eq_true] at hm; rw [hm]; exact Bool.false_ne_true)]
      rw [reachN_succ, mem_reachStep] at ht
      rcases ht with h1 | ⟨u, hu, hnb⟩
      · rw [Bool.not_eq_true] at hm
        rw [containsB_of_mem h1] at hm
        cases hm
      · cases hf : (reachN g s k).find? (fun u => (nbrKeys g u).contains t) with
        | none =>
          exfalso
          rw [List.find?_eq_none] at hf
          exact hf u hu (containsB_of_mem hnb)
        | some w =>
          obtain ⟨q, hq⟩ := ih (List.mem_of_find?_eq_some hf)
          show ∃ p, Option.map (fun p => p ++ [t]) (getPath g s k w) = some p
          rw [hq]
          exact ⟨q ++ [t], rfl⟩

/-- Conversely, any adjacency path from `s` ends inside some layer. -/
theorem reach_of_path {g : Graph} {s : String} :
    ∀ (p : List String) (t : String), p.head? = some s →
    p.getLast? = some t →
    List.Chain' (fun a b => b ∈ nbrKeys g a) p →
    ∃ k, t ∈ reachN g s k := by
  intro p
  induction p using List.reverseRecOn with
  | nil =>
    intro t hh _ _
    cases hh
  | append_singleton q x ihq =>
    intro t hh hl hc
    rw [List.getLast?_append] at hl
    have hxt : x = t := by
      have h2 : some x = some t := hl
      injection h2
    subst hxt
    cases q with
    | nil =>
      have hxs : x = s := by
        have h2 : some x = some s := hh
        injection h2
      refine ⟨0, ?_⟩
      rw [reachN_zero, hxs]
      exact List.mem_singleton_self s
    | cons q0 qrest =>
      rw [List.chain'_append] at hc
      obtain ⟨hcq, _, hlink⟩ := hc
      cases hq : (q0 :: qrest).getLast? with
      | none =>
        exfalso
        rw [List.getLast?_eq_none_iff] at hq
        cases hq
      | some u =>
        have hadj : x ∈ nbrKeys g u :=
          hlink u (by rw [Option.mem_def, hq]) x (by rw [Option.mem_def]; rfl)
        have hq0 : q0 = s := by
          have h2 : some q0 = some s := hh
          injection h2
        have hhq : (q0 :: qrest).head? = some s := by
          rw [List.head?_cons, hq0]
        obtain ⟨k, hk⟩ := ihq u hhq hq hcq
        refine ⟨k + 1, ?_⟩
        rw [reachN_succ, mem_reachStep]
        exact Or.inr ⟨u, hk, hadj⟩

/-- C1, counterexample: when either endpoint is not a node (here `"C"`),
`shortest_path` does not return `None` — the `NodeNotFound` exception
escapes the `except NetworkXNoPath` clause and propagates as an error. -/
theorem c1_shortest_path_counterexample :
    shortest_path (load_data [("A", "B", 3)] 1) "A" "C" =
      Except.error PyErr.nodeNotFound
    ∧ (Except.error PyErr.nodeNotFound :
        Except PyErr (Option (List String))) ≠ Except.ok none := by
  refine ⟨by decide, by decide⟩

/-- C1, amended: `shortest_path(g, s, t)` returns `None` (not an error)
when `s` and `t` are both nodes lying in disconnected components; when
either name is not a node of `g` it instead raises an uncaught
`NodeNotFound` exception; and when a path exists it returns the ordered
node sequence from `s` to `t` inclusive, following graph adjacencies. -/
theorem c1_shortest_path_spec (g : Graph) (hw : WF g) (s t : String) :
    (¬ (s ∈ nodesList g ∧ t ∈ nodesList g) →
      shortest_path g s t = Except.error PyErr.nodeNotFound)
    ∧ (s ∈ nodesList g → t ∈ nodesList g → ¬ (∃ p, PathFrom g s t p) →
      shortest_path g s t = Except.ok none)
    ∧ (s ∈ nodesList g → t ∈ nodesList g → (∃ p, PathFrom g s t p) →
      ∃ p, shortest_path g s t = Except.ok (some p) ∧ PathFrom g s t p) := by
  refine ⟨?_, ?_, ?_⟩
  · intro h
    unfold shortest_path nx_shortest_path
    have hc : ((nodesList g).contains s && (nodesList g).contains t) = false := by
      by_cases hs : s ∈ nodesList g
      · have ht : t ∉ nodesList g := fun ht => h ⟨hs, ht⟩
        have hct : (nodesList g).contains t = false := by
          cases hb : (nodesList g).contains t with
          | false => rfl
          | true => exact absurd (List.elem_iff.mp hb) ht
        rw [hct, Bool.and_false]
      · have hcs : (nodesList g).contains s = false := by
          cases hb : (nodesList g).contains s with
          | false => rfl
          | true => exact absurd (List.elem_iff.mp hb) hs
        rw [hcs, Bool.false_and]
    rw [if_neg (by rw [hc]; exact Bool.false_ne_true)]
  · intro hs ht hnp
    unfold shortest_path nx_shortest_path
    rw [if_pos (by rw [containsB_of_mem hs, containsB_of_mem ht]; rfl)]
    cases hgp : getPath g s (boundN g) t with
    | none => rfl
    | some p =>
      exfalso
      obtain ⟨hh, hl, hc⟩ := getPath_sound (boundN g) hgp
      exact hnp ⟨p, hh, hl, hc⟩
  · intro hs ht hex
    obtain ⟨p0, hp1, hp2, hp3⟩ := hex
    unfold shortest_path nx_shortest_path
    rw [if_pos (by rw [containsB_of_mem hs, containsB_of_mem ht]; rfl)]
    obtain ⟨k, hk⟩ := reach_of_path p0 t hp1 hp2 hp3
    have hsat := reach_saturates hw s t ⟨k, hk⟩
    obtain ⟨p, hp⟩ := getPath_complete (boundN g) hsat
    rw [hp]
    obtain ⟨hh, hl, hc⟩ := getPath_sound (boundN g) hp
    exact ⟨p, rfl, hh, hl, hc⟩

/-- C1 witness: on the two-component graph `A–B`, `C–D` the full amended
conclusion is obtained with the well-formedness hypothesis discharged
concretely (for endpoints `A`, `C`). -/
theorem c1_shortest_path_spec_witness :
    WF (load_data [("A", "B", 3), ("C", "D", 2)] 1)
    ∧ ((¬ ("A" ∈ nodesList (load_data [("A", "B", 3), ("C", "D", 2)] 1)
          ∧ "C" ∈ nodesList (load_data [("A", "B", 3), ("C", "D", 2)] 1)) →
        shortest_path (load_data [("A", "B", 3), ("C", "D", 2)] 1) "A" "C" =
          Except.error PyErr.nodeNotFound)
      ∧ ("A" ∈ nodesList (load_data [("A", "B", 3), ("C", "D", 2)] 1) →
         "C" ∈ nodesList (load_data [("A", "B", 3), ("C", "D", 2)] 1) →
         ¬ (∃ p, PathFrom (load_data [("A", "B", 3), ("C", "D", 2)] 1) "A" "C" p) →
        shortest_path (load_data [("A", "B", 3), ("C", "D", 2)] 1) "A" "C" =
          Except.ok none)
      ∧ ("A" ∈ nodesList (load_data [("A", "B", 3), ("C", "D", 2)] 1) →
         "C" ∈ nodesList (load_data [("A", "B", 3), ("C", "D", 2)] 1) →
         (∃ p, PathFrom (load_data [("A", "B", 3), ("C", "D", 2)] 1) "A" "C" p) →
        ∃ p, shortest_path (load_data [("A", "B", 3), ("C", "D", 2)] 1) "A" "C" =
          Except.ok (some p)
          ∧ PathFrom (load_data [("A", "B", 3), ("C", "D", 2)] 1) "A" "C" p)) :=
  ⟨by decide,
    c1_shortest_path_spec (load_data [("A", "B", 3), ("C", "D", 2)] 1)
      (by decide) "A" "C"⟩
